import Mathlib

/-!
# Expression calculators: evaluator and recursive-descent parser

A shallow embedding of `src/calculator.cpp` (the six-variant expression tree and its
`evaluate`) and of `src/parser_calculator.cpp` (the four-variant tree, its `evaluate`, and
the `Parser` class), together with the properties of their specification.

The C++ `double` is modelled by `Double` below: an IEEE-754 binary64 value with its
signed zeros, infinities and one NaN, and the four arithmetic operations rounded to
nearest, ties to even.
-/

deriving instance DecidableEq for Except

/-! ## The `double` type -/

/-- An IEEE-754 binary64 value.  `fin neg m e` is `(-1)^neg * m * 2^e`; the values the
operations below produce are canonical: `m < 2^53`, `-1074 ≤ e ≤ 971`, and `m < 2^52`
only for `e = -1074` (zeros and subnormals).  All NaNs are one value. -/
inductive Double where
  | nan : Double
  | inf (neg : Bool) : Double
  | fin (neg : Bool) (m : Nat) (e : Int) : Double
deriving DecidableEq, Repr

namespace Double

/-- The zero of the given sign. -/
def zero (neg : Bool) : Double := fin neg 0 (-1074)

/-- Number of binary digits of `n`, for `n` below `2^fuel`. -/
def bits : Nat → Nat → Nat
  | 0, _ => 0
  | fuel + 1, n => if n = 0 then 0 else bits fuel (n / 2) + 1

/-- Position of the leading binary digit: `floor (log2 n)` for `n > 0`. -/
def log2 (n : Nat) : Nat := bits n n - 1

/-- Quotient `floor (n / (d * 2^e))` and the numerator and denominator it was taken
from, for an exponent `e` of either sign. -/
def scaled (n d : Nat) (e : Int) : Nat × Nat :=
  if e < 0 then (n * 2 ^ (-e).toNat, d) else (n, d * 2 ^ e.toNat)

/-- The binary64 nearest to the positive rational `n / d` (ties to even), with the given
sign: the exponent is chosen so that the quotient has 53 bits (or is subnormal), the
quotient is rounded on the remainder, and a result above the largest finite value is an
infinity. -/
def round (neg : Bool) (n d : Nat) : Double :=
  let k : Int := (log2 n : Int) - (log2 d : Int)
  let p0 := scaled n d (k - 52)
  let e1 : Int := if p0.1 / p0.2 < 2 ^ 52 then k - 53 else k - 52
  let e : Int := if e1 < -1074 then -1074 else e1
  let p := scaled n d e
  let q := p.1 / p.2
  let r := p.1 % p.2
  let q1 := if p.2 < 2 * r ∨ (2 * r = p.2 ∧ q % 2 = 1) then q + 1 else q
  let m := if q1 = 2 ^ 53 then 2 ^ 52 else q1
  let e2 : Int := if q1 = 2 ^ 53 then e + 1 else e
  if 971 < e2 then inf neg else fin neg m e2

/-- The binary64 nearest to `n * 2^e`, with the given sign. -/
def ofScaled (neg : Bool) (n : Nat) (e : Int) : Double :=
  if n = 0 then zero neg
  else if e < 0 then round neg n (2 ^ (-e).toNat) else round neg (n * 2 ^ e.toNat) 1

/-- Conversion of a non-negative integer, as in `Constant(2)`. -/
def ofNat (n : Nat) : Double := ofScaled false n 0

/-- Unary minus: the sign is flipped, whatever the value. -/
def neg : Double → Double
  | nan => nan
  | inf s => inf (!s)
  | fin s m e => fin (!s) m e

/-- The integer `(-1)^s * n`. -/
def signed (s : Bool) (n : Nat) : Int := if s then -(n : Int) else (n : Int)

/-- Sum, rounded to nearest.  An exact zero sum is `+0` unless both operands are
negative (zeros). -/
def add : Double → Double → Double
  | nan, _ => nan
  | _, nan => nan
  | inf s, inf t => if s = t then inf s else nan
  | inf s, fin _ _ _ => inf s
  | fin _ _ _, inf t => inf t
  | fin s1 m1 e1, fin s2 m2 e2 =>
    let e : Int := if e1 ≤ e2 then e1 else e2
    let z : Int := signed s1 (m1 * 2 ^ (e1 - e).toNat) + signed s2 (m2 * 2 ^ (e2 - e).toNat)
    if z = 0 then zero (s1 && s2) else ofScaled (decide (z < 0)) z.natAbs e

/-- Difference: `x - y` is `x + (-y)`. -/
def sub (x y : Double) : Double := add x (neg y)

/-- Product, rounded to nearest. -/
def mul : Double → Double → Double
  | nan, _ => nan
  | _, nan => nan
  | inf s, inf t => inf (xor s t)
  | inf s, fin t m _ => if m = 0 then nan else inf (xor s t)
  | fin s m _, inf t => if m = 0 then nan else inf (xor s t)
  | fin s1 m1 e1, fin s2 m2 e2 => ofScaled (xor s1 s2) (m1 * m2) (e1 + e2)

/-- Quotient, rounded to nearest. -/
def div : Double → Double → Double
  | nan, _ => nan
  | _, nan => nan
  | inf _, inf _ => nan
  | inf s, fin t _ _ => inf (xor s t)
  | fin s _ _, inf t => zero (xor s t)
  | fin s1 m1 e1, fin s2 m2 e2 =>
    if m2 = 0 then (if m1 = 0 then nan else inf (xor s1 s2))
    else if m1 = 0 then zero (xor s1 s2)
    else
      let p := scaled m1 m2 (e2 - e1)
      round (xor s1 s2) p.1 p.2

/-- The comparison `x == y` of C++: false on a NaN, true on zeros of either sign,
otherwise equality of sign and value. -/
def eq : Double → Double → Bool
  | nan, _ => false
  | _, nan => false
  | inf s, inf t => s == t
  | inf _, fin _ _ _ => false
  | fin _ _ _, inf _ => false
  | fin s1 m1 e1, fin s2 m2 e2 =>
    let e : Int := if e1 ≤ e2 then e1 else e2
    if m1 = 0 ∨ m2 = 0 then decide (m1 = 0 ∧ m2 = 0)
    else s1 == s2 && m1 * 2 ^ (e1 - e).toNat == m2 * 2 ^ (e2 - e).toNat

/-- Whether the value is a finite number. -/
def isFinite : Double → Bool
  | fin _ _ _ => true
  | _ => false

/-- The exact rational value of a finite `Double`. -/
def toRat : Double → Option ℚ
  | fin s m e => some ((if s then -1 else 1) * (m : ℚ) * (2 : ℚ) ^ e)
  | _ => none

end Double

/-! ## `src/calculator.cpp` -/

namespace Calculator

/-- The class hierarchy under `Expression`: one constructor per concrete class, the
owned sub-expressions as arguments. -/
inductive Expression where
  | Constant (value : Double) : Expression
  | Add (left right : Expression) : Expression
  | Subtract (left right : Expression) : Expression
  | Multiply (left right : Expression) : Expression
  | Divide (left right : Expression) : Expression
  | Negate (operand : Expression) : Expression
deriving DecidableEq, Repr

/-- The one exception `evaluate` throws: `std::runtime_error("Error: Division by zero.")`. -/
inductive EvalError where
  | DivisionByZero : EvalError
deriving DecidableEq, Repr

/-- The virtual `evaluate()`, one equation per override.  A thrown exception is
`Except.error`; it unwinds through every caller, as `bind` does.  `Divide` evaluates its
right operand first, tests it with `== 0`, and only then evaluates its left operand. -/
def evaluate : Expression → Except EvalError Double
  | .Constant value => .ok value
  | .Add left right =>
    match evaluate left with
    | .error err => .error err
    | .ok l =>
      match evaluate right with
      | .error err => .error err
      | .ok r => .ok (Double.add l r)
  | .Subtract left right =>
    match evaluate left with
    | .error err => .error err
    | .ok l =>
      match evaluate right with
      | .error err => .error err
      | .ok r => .ok (Double.sub l r)
  | .Multiply left right =>
    match evaluate left with
    | .error err => .error err
    | .ok l =>
      match evaluate right with
      | .error err => .error err
      | .ok r => .ok (Double.mul l r)
  | .Divide left right =>
    match evaluate right with
    | .error err => .error err
    | .ok right_value =>
      if Double.eq right_value (Double.ofNat 0) then .error EvalError.DivisionByZero
      else
        match evaluate left with
        | .error err => .error err
        | .ok l => .ok (Double.div l right_value)
  | .Negate operand =>
    match evaluate operand with
    | .error err => .error err
    | .ok v => .ok (Double.neg v)

/-- Whether an evaluation returned a value that compares equal to zero. -/
def isZeroValue : Except EvalError Double → Bool
  | .ok v => Double.eq v (Double.ofNat 0)
  | .error _ => false

/-- A binary operation on the results of two evaluations: the value of the operation
when both returned, the failure when either failed. -/
def lift2 (op : Double → Double → Double) :
    Except EvalError Double → Except EvalError Double → Except EvalError Double
  | .ok x, .ok y => .ok (op x y)
  | .error err, _ => .error err
  | .ok _, .error err => .error err

/-- A unary operation on the result of an evaluation. -/
def lift1 (op : Double → Double) : Except EvalError Double → Except EvalError Double
  | .ok x => .ok (op x)
  | .error err => .error err

/-- Every node of a tree, the root first. -/
def nodes : Expression → List Expression
  | .Constant value => [.Constant value]
  | .Add left right => .Add left right :: (nodes left ++ nodes right)
  | .Subtract left right => .Subtract left right :: (nodes left ++ nodes right)
  | .Multiply left right => .Multiply left right :: (nodes left ++ nodes right)
  | .Divide left right => .Divide left right :: (nodes left ++ nodes right)
  | .Negate operand => .Negate operand :: nodes operand

/-- A `Divide` node whose right operand evaluates to zero. -/
def zeroDivisor : Expression → Bool
  | .Divide _ right => isZeroValue (evaluate right)
  | _ => false

end Calculator

/-! ## `src/parser_calculator.cpp` -/

namespace ParserCalculator

/-- The class hierarchy under `Expression` in the parser's file: four concrete classes. -/
inductive Expression where
  | Constant (value : Double) : Expression
  | Add (lhs rhs : Expression) : Expression
  | Multiply (lhs rhs : Expression) : Expression
  | Negate (operand : Expression) : Expression
deriving DecidableEq, Repr

/-- The virtual `evaluate()`; no override of this file throws. -/
def evaluate : Expression → Double
  | .Constant value => value
  | .Add lhs rhs => Double.add (evaluate lhs) (evaluate rhs)
  | .Multiply lhs rhs => Double.mul (evaluate lhs) (evaluate rhs)
  | .Negate operand => Double.neg (evaluate operand)

/-- The two exceptions of the parser: `std::runtime_error("Expected number")` and
`std::runtime_error("Expected ')'")`. -/
inductive ParseError where
  | ExpectedNumber : ParseError
  | ExpectedCloseParen : ParseError
deriving DecidableEq, Repr

/-! ### The input stream

`std::istringstream input` is modelled by the characters not yet extracted.  The
stream's `eofbit` and `failbit` are not part of the state: either is set only once
nothing is left to extract or an extraction has failed, a failed extraction is followed
by a `throw`, and on an exhausted stream every operation used here behaves the same
with or without the bits (`peek` and `get` return end-of-file, `>>` fails).
End-of-file, which the source narrows to a `char`, is `none`; it is only ever compared
with ASCII characters. -/

/-- `std::isspace` in the "C" locale: space, and `\t \n \v \f \r`. -/
def isspace (c : Char) : Bool := c.toNat = 32 ∨ (9 ≤ c.toNat ∧ c.toNat ≤ 13)

/-- A decimal digit. -/
def isdigit (c : Char) : Bool := 48 ≤ c.toNat ∧ c.toNat ≤ 57

/-- The loop `while (std::isspace(input.peek())) input.get();`. -/
def skipWs : List Char → List Char
  | [] => []
  | c :: cs => if isspace c then skipWs cs else c :: cs

/-- `Parser::peek`: whitespace is extracted, the next character is returned and left in
the stream. -/
def peek (input : List Char) : Option Char × List Char :=
  ((skipWs input).head?, skipWs input)

/-- `Parser::get`: whitespace is extracted, then the next character. -/
def get (input : List Char) : Option Char × List Char :=
  match skipWs input with
  | [] => (none, [])
  | c :: cs => (some c, cs)

/-! ### `input >> value`

The formatted extraction of a `double` is library code (`std::num_get<char>::do_get`,
"C" locale), modelled here as the C++ standard describes it and libstdc++ implements
it.  It has two stages: characters are accumulated while they can continue a
floating-point field (an optional sign, digits, one point, one exponent mark with an
optional sign), then the accumulated field is converted by the rules of `strtod`.  The
extraction sets `failbit` when the field is not a number to its end, and when the value
is beyond the largest finite `double`. -/

/-- Value of a string of decimal digits. -/
def digitsVal (ds : List Char) : Nat :=
  ds.foldl (fun acc c => 10 * acc + (c.toNat - 48)) 0

/-- The binary64 nearest to `n * 10^e`, with the given sign. -/
def decimal (neg : Bool) (n : Nat) (e : Int) : Double :=
  if n = 0 then Double.zero neg
  else if e < 0 then Double.round neg n (10 ^ (-e).toNat)
  else Double.round neg (n * 10 ^ e.toNat) 1

/-- An optional sign at the head of a field: whether it is `-`, and what follows. -/
def takeSign : List Char → Bool × List Char
  | [] => (false, [])
  | c :: cs => if c = '-' then (true, cs) else if c = '+' then (false, cs) else (false, c :: cs)

/-- The accumulation loop: digits; one decimal point, before any exponent; one `e` or
`E` once a digit has been seen, and the sign that may follow it at once (`expSign` is
set for the character after the `e`).  Returns the accumulated field and the characters
left in the stream. -/
def scanLoop (mantissa point sci expSign : Bool) (xtrc : List Char) :
    List Char → List Char × List Char
  | [] => (xtrc, [])
  | c :: cs =>
    if expSign = true ∧ (c = '+' ∨ c = '-') then
      scanLoop mantissa point sci false (xtrc ++ [c]) cs
    else if isdigit c then scanLoop true point sci false (xtrc ++ [c]) cs
    else if c = '.' ∧ point = false ∧ sci = false then
      scanLoop mantissa true sci false (xtrc ++ [c]) cs
    else if (c = 'e' ∨ c = 'E') ∧ sci = false ∧ mantissa = true then
      scanLoop mantissa point true true (xtrc ++ [ 'e']) cs
    else (xtrc, c :: cs)

/-- Stage 2 of the extraction: an optional sign, then the accumulation loop. -/
def scanFloat : List Char → List Char × List Char
  | [] => ([], [])
  | c :: cs =>
    if c = '+' ∨ c = '-' then scanLoop false false false false [c] cs
    else scanLoop false false false false [] (c :: cs)

/-- The exponent part of a field, for `strtod`: the exponent and what follows it.  An
`e` without digits is not part of the number. -/
def takeExponent : List Char → Int × List Char
  | [] => (0, [])
  | c :: cs =>
    if c = 'e' ∨ c = 'E' then
      let st := takeSign cs
      let ed := st.2.takeWhile isdigit
      if ed = [] then (0, c :: cs)
      else (Double.signed st.1 (digitsVal ed), st.2.dropWhile isdigit)
    else (0, c :: cs)

/-- The decimal fragment of `strtod`: sign, digits, an optional point and digits, an
optional exponent.  Returns the value and the unconverted tail, `none` when there is no
digit to convert. -/
def strtod (s : List Char) : Option (Double × List Char) :=
  let st := takeSign s
  let ip := st.2.takeWhile isdigit
  let s2 := st.2.dropWhile isdigit
  let fp := match s2 with
    | [] => []
    | c :: cs => if c = '.' then cs.takeWhile isdigit else []
  let s3 := match s2 with
    | [] => []
    | c :: cs => if c = '.' then cs.dropWhile isdigit else c :: cs
  if ip = [] ∧ fp = [] then none
  else
    let ex := takeExponent s3
    some (decimal st.1 (digitsVal (ip ++ fp)) (ex.1 - (fp.length : Int)), ex.2)

/-- The statement `input >> value` followed by the test `input.fail()`: `none` when the
extraction fails, otherwise the value and the rest of the stream.  Leading whitespace
is skipped; the accumulated field must be a number to its end, and a value beyond the
largest finite `double` is a failure. -/
def extractDouble (input : List Char) : Option (Double × List Char) :=
  let sc := scanFloat (skipWs input)
  match strtod sc.1 with
  | none => none
  | some (v, tail) =>
    if tail = [] then
      (match v with
       | .inf _ => none
       | _ => some (v, sc.2))
    else none

/-! ### The recursive descent

Each function takes a bound on the depth of calls still allowed and returns `none`
when the bound is reached; `parse` starts with a bound that is never reached. -/

/-- Outcome of a parsing function: out of depth, an exception, or the node built and
the stream after it. -/
abbrev Outcome := Option (Except ParseError (Expression × List Char))

mutual

/-- `Parser::parsePrimary`. -/
def parsePrimary : Nat → List Char → Outcome
  | 0, _ => none
  | fuel + 1, input =>
    if (peek input).1 = some '-' then
      match parsePrimary fuel (get (peek input).2).2 with
      | some (.ok (operand, rest)) => some (.ok (.Negate operand, rest))
      | other => other
    else if (peek (peek input).2).1 = some '(' then
      match parseExpression fuel (get (peek (peek input).2).2).2 with
      | some (.ok (expr, rest)) =>
        if (get rest).1 = some ')' then some (.ok (expr, (get rest).2))
        else some (.error .ExpectedCloseParen)
      | other => other
    else
      match extractDouble (peek (peek input).2).2 with
      | none => some (.error .ExpectedNumber)
      | some (value, rest) => some (.ok (.Constant value, rest))

/-- The loop of `Parser::parseTerm`, entered with the node built so far. -/
def parseTermLoop : Nat → Expression → List Char → Outcome
  | 0, _, _ => none
  | fuel + 1, node, input =>
    if (peek input).1 = some '*' then
      match parsePrimary fuel (get (peek input).2).2 with
      | some (.ok (rhs, rest)) => parseTermLoop fuel (.Multiply node rhs) rest
      | other => other
    else some (.ok (node, (peek input).2))

/-- `Parser::parseTerm`. -/
def parseTerm : Nat → List Char → Outcome
  | 0, _ => none
  | fuel + 1, input =>
    match parsePrimary fuel input with
    | some (.ok (node, rest)) => parseTermLoop fuel node rest
    | other => other

/-- The loop of `Parser::parseExpression`, entered with the node built so far. -/
def parseExpressionLoop : Nat → Expression → List Char → Outcome
  | 0, _, _ => none
  | fuel + 1, node, input =>
    if (peek input).1 = some '+' then
      match parseTerm fuel (get (peek input).2).2 with
      | some (.ok (rhs, rest)) => parseExpressionLoop fuel (.Add node rhs) rest
      | other => other
    else some (.ok (node, (peek input).2))

/-- `Parser::parseExpression`. -/
def parseExpression : Nat → List Char → Outcome
  | 0, _ => none
  | fuel + 1, input =>
    match parseTerm fuel input with
    | some (.ok (node, rest)) => parseExpressionLoop fuel node rest
    | other => other

end

/-- `Parser(str).parse()`: the stream is the whole string, and the result is the tree
alone (the stream is dropped with the parser). -/
def parse (str : String) : Option (Except ParseError Expression) :=
  match parseExpression (4 * str.length + 3) str.toList with
  | none => none
  | some (.error err) => some (.error err)
  | some (.ok (expr, _)) => some (.ok expr)

/-! ### Unsigned decimal literals -/

/-- The shape of an unsigned decimal literal: decimal digits with at most one point
among them, and at least one digit (`22`, `13.75`, `5.`, `.5`). -/
def literalShape (s : List Char) : Bool :=
  match s.dropWhile isdigit with
  | [] => !s.isEmpty
  | c :: fp => decide (c = '.') && fp.all isdigit && !(s.takeWhile isdigit ++ fp).isEmpty

/-- The `double` an unsigned decimal literal denotes: the digits read as an integer,
over ten to the number of digits after the point, rounded to nearest. -/
def literalValue (s : List Char) : Double :=
  if digitsVal (s.filter isdigit) = 0 then Double.zero false
  else Double.round false (digitsVal (s.filter isdigit))
    (10 ^ ((s.dropWhile isdigit).length - 1))

/-- An unsigned decimal literal: a string of the literal shape whose value is in the
range of `double` (a literal out of that range denotes no `double`). -/
def Literal (s : String) : Prop :=
  literalShape s.toList = true ∧ (literalValue s.toList).isFinite = true

instance (s : String) : Decidable (Literal s) :=
  inferInstanceAs (Decidable (_ ∧ _))

/-- The `Constant` node of a literal. -/
def lit (s : String) : Expression := .Constant (literalValue s.toList)

/-- The operands `x`, then each of `xs`, written in order with `sep` between them. -/
def joined (sep : String) (x : String) (xs : List String) : String :=
  xs.foldl (fun acc y => acc ++ sep ++ y) x

/-- The characters of `joined sep x xs` after those of `x`. -/
def joinedTail (sep : List Char) : List String → List Char
  | [] => []
  | y :: ys => sep ++ (y.toList ++ joinedTail sep ys)

/-- What may follow a number in the stream for the extraction to stop there: the end,
or a character that is no digit, point or exponent mark. -/
def stops : List Char → Bool
  | [] => true
  | c :: _ => !isdigit c && decide (c ≠ '.') && decide (c ≠ 'e') && decide (c ≠ 'E')

/-! ### Complete parses -/

/-- `parse` succeeds on `s` with the tree `e` having consumed all of `s`: the stream is
exhausted when `parseExpression` returns. -/
def ParsesAll (s : String) (e : Expression) : Prop :=
  parseExpression (4 * s.length + 3) s.toList = some (.ok (e, []))

instance (s : String) (e : Expression) : Decidable (ParsesAll s e) :=
  inferInstanceAs (Decidable (_ = _))

/-- What a loop does with the node it has built when all that is left of the stream is
the tail `t`: it fails with `err`, or (for `none`) it returns the node and leaves the
tail, less the whitespace it has skipped. -/
def tailResult (err : Option ParseError) (node : Expression) (t : List Char) : Outcome :=
  match err with
  | some e => some (.error e)
  | none => some (.ok (node, skipWs t))

/-- What `parseExpression` does with the tree it has built when all that is left of the
stream is the tail `t`: the loop of `parseTerm` meets the tail first, then the loop of
`parseExpression`. -/
def resume (tlErr elErr : Option ParseError) (node : Expression) (t : List Char) : Outcome :=
  match tlErr with
  | some e => some (.error e)
  | none => tailResult elErr node t

/-- The depth bounds within which each function returns on the stream `input`: four
calls for every character left, and one to three more. -/
def Returns (input : List Char) : Prop :=
  (∀ f, 4 * input.length + 1 ≤ f → ∃ r, parsePrimary f input = some r) ∧
  (∀ f node, 4 * input.length + 1 ≤ f → ∃ r, parseTermLoop f node input = some r) ∧
  (∀ f, 4 * input.length + 2 ≤ f → ∃ r, parseTerm f input = some r) ∧
  (∀ f node, 4 * input.length + 2 ≤ f → ∃ r, parseExpressionLoop f node input = some r) ∧
  (∀ f, 4 * input.length + 3 ≤ f → ∃ r, parseExpression f input = some r)

/-! ### The trees of the two files -/

/-- A tree of the parser's file as a tree of `calculator.cpp`: the same classes, with
the same operands. -/
def toCalculator : Expression → Calculator.Expression
  | .Constant value => .Constant value
  | .Add lhs rhs => .Add (toCalculator lhs) (toCalculator rhs)
  | .Multiply lhs rhs => .Multiply (toCalculator lhs) (toCalculator rhs)
  | .Negate operand => .Negate (toCalculator operand)

/-- A node of one of the four classes of the parser's file. -/
def parserNode : Calculator.Expression → Bool
  | .Constant _ => true
  | .Add _ _ => true
  | .Multiply _ _ => true
  | .Negate _ => true
  | .Subtract _ _ => false
  | .Divide _ _ => false

end ParserCalculator

/-! ## Properties of `src/calculator.cpp` -/

namespace Calculator

theorem evaluate_total (t : Expression) :
    evaluate t = .error .DivisionByZero ∨ ∃ v, evaluate t = .ok v := by
  cases h : evaluate t with
  | error err => cases err; exact Or.inl rfl
  | ok v => exact Or.inr ⟨v, rfl⟩

/-- C1 (as amended): `evaluate(Divide(a,b))` fails with `DivisionByZero` exactly when
`evaluate(b)` equals zero or the evaluation of `a` or of `b` itself fails, and it returns
`v` exactly when both operands return, the right one is not zero, and `v` is their
quotient. -/
theorem divide_evaluate (a b : Expression) :
    (evaluate (.Divide a b) = .error .DivisionByZero ↔
      (isZeroValue (evaluate b) = true ∨ evaluate b = .error .DivisionByZero ∨
        evaluate a = .error .DivisionByZero)) ∧
    (∀ v, evaluate (.Divide a b) = .ok v ↔
      ∃ x y, evaluate a = .ok x ∧ evaluate b = .ok y ∧
        Double.eq y (Double.ofNat 0) = false ∧ v = Double.div x y) := by
  rw [evaluate]
  cases hb : evaluate b with
  | error eb => cases eb; simp [isZeroValue]
  | ok y =>
    cases hz : Double.eq y (Double.ofNat 0) with
    | true => simp [isZeroValue, hz]
    | false =>
      cases ha : evaluate a with
      | error ea => cases ea; simp [isZeroValue, hz]
      | ok x =>
        simp only [isZeroValue, hz]
        constructor
        · simp
        · intro v
          constructor
          · intro h
            injection h with h
            exact ⟨x, y, rfl, rfl, hz, h.symm⟩
          · rintro ⟨x', y', hx, hy, -, hv⟩
            injection hx with hx
            injection hy with hy
            subst hx hy hv
            rfl

/-- C1 (the claim as stated fails): with `a = Divide(1, 0)` and `b = 1`, the tree
`Divide(a, b)` fails with `DivisionByZero` although `evaluate(b)` returns one, which
does not equal zero. -/
theorem divide_fails_with_nonzero_divisor :
    evaluate (.Divide (.Divide (.Constant (Double.ofNat 1)) (.Constant (Double.ofNat 0)))
        (.Constant (Double.ofNat 1))) = .error .DivisionByZero ∧
      evaluate (.Constant (Double.ofNat 1)) = .ok (Double.ofNat 1) ∧
      Double.eq (Double.ofNat 1) (Double.ofNat 0) = false ∧
      ¬ (evaluate (.Divide (.Divide (.Constant (Double.ofNat 1)) (.Constant (Double.ofNat 0)))
          (.Constant (Double.ofNat 1))) = .error .DivisionByZero ↔
        isZeroValue (evaluate (.Constant (Double.ofNat 1))) = true) := by
  decide

theorem any_zeroDivisor_iff (t : Expression) :
    (nodes t).any zeroDivisor = true ↔ evaluate t = .error .DivisionByZero := by
  induction t with
  | Constant value => simp [evaluate, nodes, zeroDivisor]
  | Add l r ihl ihr =>
    rw [nodes, List.any_cons, List.any_append, Bool.or_eq_true, Bool.or_eq_true, ihl, ihr,
      evaluate]
    rcases evaluate_total l with hl | ⟨x, hl⟩ <;> rcases evaluate_total r with hr | ⟨y, hr⟩ <;>
      simp [hl, hr, zeroDivisor]
  | Subtract l r ihl ihr =>
    rw [nodes, List.any_cons, List.any_append, Bool.or_eq_true, Bool.or_eq_true, ihl, ihr,
      evaluate]
    rcases evaluate_total l with hl | ⟨x, hl⟩ <;> rcases evaluate_total r with hr | ⟨y, hr⟩ <;>
      simp [hl, hr, zeroDivisor]
  | Multiply l r ihl ihr =>
    rw [nodes, List.any_cons, List.any_append, Bool.or_eq_true, Bool.or_eq_true, ihl, ihr,
      evaluate]
    rcases evaluate_total l with hl | ⟨x, hl⟩ <;> rcases evaluate_total r with hr | ⟨y, hr⟩ <;>
      simp [hl, hr, zeroDivisor]
  | Divide l r ihl ihr =>
    rw [nodes, List.any_cons, List.any_append, Bool.or_eq_true, Bool.or_eq_true, ihl, ihr,
      evaluate]
    rcases evaluate_total l with hl | ⟨x, hl⟩ <;> rcases evaluate_total r with hr | ⟨y, hr⟩ <;>
      simp [hl, hr, zeroDivisor, isZeroValue]
  | Negate a ih =>
    rw [nodes, List.any_cons, Bool.or_eq_true, ih, evaluate]
    rcases evaluate_total a with ha | ⟨x, ha⟩ <;> simp [ha, zeroDivisor]

theorem evaluate_error_iff (t : Expression) :
    evaluate t = .error .DivisionByZero ↔ (nodes t).any zeroDivisor = true :=
  (any_zeroDivisor_iff t).symm

/-- C2: `evaluate(t)` fails with `DivisionByZero` exactly when some `Divide` node of `t`
has a right operand that evaluates to zero, and it returns a number exactly when no
node is such a `Divide`: division by zero is the only failure and it aborts the
evaluation of the whole tree. -/
theorem evaluate_fails_iff_zero_divisor (t : Expression) :
    (evaluate t = .error .DivisionByZero ↔ (nodes t).any zeroDivisor = true) ∧
    ((∃ v, evaluate t = .ok v) ↔ (nodes t).any zeroDivisor = false) := by
  refine ⟨evaluate_error_iff t, ?_⟩
  rw [← Bool.not_eq_true, ← evaluate_error_iff]
  rcases evaluate_total t with h | ⟨v, h⟩ <;> simp [h]

/-- C3: `Add`, `Subtract` and `Multiply` evaluate to the sum, difference and product of
the values of their operands, and fail when either operand fails. -/
theorem binary_evaluate (a b : Expression) :
    evaluate (.Add a b) = lift2 Double.add (evaluate a) (evaluate b) ∧
    evaluate (.Subtract a b) = lift2 Double.sub (evaluate a) (evaluate b) ∧
    evaluate (.Multiply a b) = lift2 Double.mul (evaluate a) (evaluate b) := by
  refine ⟨?_, ?_, ?_⟩ <;> rw [evaluate] <;>
    cases evaluate a <;> cases evaluate b <;> rfl

theorem neg_neg (x : Double) : Double.neg (Double.neg x) = x := by
  cases x <;> simp [Double.neg]

/-- C4: `Negate` evaluates to the negation of the value of its operand and fails when
the operand fails; a double negation evaluates as the operand itself does. -/
theorem negate_evaluate (a : Expression) :
    evaluate (.Negate a) = lift1 Double.neg (evaluate a) ∧
    evaluate (.Negate (.Negate a)) = evaluate a := by
  constructor
  · rw [evaluate]; cases evaluate a <;> rfl
  · rw [evaluate, evaluate]; cases evaluate a <;> simp [neg_neg]

/-- C5: a `Constant` evaluates to the value it holds, and never fails. -/
theorem constant_evaluate (n : Double) : evaluate (.Constant n) = .ok n := by
  rw [evaluate]

end Calculator

/-! ## Properties of `src/parser_calculator.cpp` -/

namespace ParserCalculator

/-! ### Numbers -/

theorem skipWs_cons_of_not_space {c : Char} (cs : List Char) (h : isspace c = false) :
    skipWs (c :: cs) = c :: cs := by
  simp [skipWs, h]

theorem skipWs_skipWs (input : List Char) : skipWs (skipWs input) = skipWs input := by
  induction input with
  | nil => rfl
  | cons c cs ih =>
    by_cases h : isspace c = true
    · simp [skipWs, h, ih]
    · simp [skipWs, h]

theorem isdigit_not_space {c : Char} (h : isdigit c = true) : isspace c = false := by
  simp only [isdigit, isspace, decide_eq_true_eq, decide_eq_false_iff_not] at *
  omega

theorem takeWhile_digits (ip r : List Char) (hip : ∀ c ∈ ip, isdigit c = true)
    (hr : ∀ c ∈ r.head?, isdigit c = false) :
    (ip ++ r).takeWhile isdigit = ip ∧ (ip ++ r).dropWhile isdigit = r := by
  induction ip with
  | nil =>
    cases r with
    | nil => simp
    | cons c cs => simp [List.takeWhile, List.dropWhile, hr c (by simp)]
  | cons d ds ih =>
    have hd : isdigit d = true := hip d (by simp)
    have := ih (fun c hc => hip c (by simp [hc]))
    simp [List.takeWhile, List.dropWhile, hd, this]

/-- The decomposition of a string of the literal shape: digits, then nothing or a point
and digits. -/
theorem literalShape_cases {s : List Char} (h : literalShape s = true) :
    ∃ ip tl, s = ip ++ tl ∧ (∀ c ∈ ip, isdigit c = true) ∧
      ((tl = [] ∧ ip ≠ []) ∨
        ∃ fp, tl = '.' :: fp ∧ (∀ c ∈ fp, isdigit c = true) ∧ (ip ≠ [] ∨ fp ≠ [])) := by
  refine ⟨s.takeWhile isdigit, s.dropWhile isdigit, (List.takeWhile_append_dropWhile _ _).symm,
    fun c hc => (List.mem_takeWhile_imp hc), ?_⟩
  unfold literalShape at h
  cases hd : s.dropWhile isdigit with
  | nil =>
    left
    rw [hd] at h
    have hs : s ≠ [] := by simpa using h
    refine ⟨rfl, ?_⟩
    have := List.takeWhile_append_dropWhile isdigit s
    rw [hd, List.append_nil] at this
    rwa [this]
  | cons c fp =>
    right
    rw [hd] at h
    simp only [Bool.and_eq_true, decide_eq_true_eq, List.all_eq_true, Bool.not_eq_true',
      List.isEmpty_eq_false_iff_exists_mem] at h
    obtain ⟨⟨hc, hfp⟩, x, hx⟩ := h
    refine ⟨fp, by rw [hc], hfp, ?_⟩
    by_contra hcon
    push_neg at hcon
    rw [hcon.1, hcon.2] at hx
    simp at hx

theorem scanLoop_digits (ip : List Char) (hip : ∀ c ∈ ip, isdigit c = true)
    (m p sc : Bool) (acc r : List Char) :
    scanLoop m p sc false acc (ip ++ r) = scanLoop (m || !ip.isEmpty) p sc false (acc ++ ip) r := by
  induction ip generalizing m acc with
  | nil => simp
  | cons d ds ih =>
    have hd : isdigit d = true := hip d (by simp)
    rw [List.cons_append, scanLoop]
    simp only [Bool.false_eq_true, false_and, if_false, hd, if_true]
    rw [ih (fun c hc => hip c (by simp [hc]))]
    simp

theorem scanLoop_stops (m p sc : Bool) (acc r : List Char) (hr : stops r = true) :
    scanLoop m p sc false acc r = (acc, r) := by
  cases r with
  | nil => rfl
  | cons c cs =>
    simp only [stops, Bool.and_eq_true, Bool.not_eq_true', decide_eq_true_eq] at hr
    obtain ⟨⟨⟨h1, h2⟩, h3⟩, h4⟩ := hr
    simp [scanLoop, h1, h2, h3, h4]

theorem point_not_digit : isdigit '.' = false := by decide

theorem scanFloat_literal {s : List Char} (h : literalShape s = true) (r : List Char)
    (hr : stops r = true) : scanFloat (s ++ r) = (s, r) := by
  obtain ⟨ip, tl, rfl, hip, htl⟩ := literalShape_cases h
  have key : scanLoop false false false false [] (ip ++ tl ++ r) = (ip ++ tl, r) := by
    rw [List.append_assoc, scanLoop_digits ip hip]
    rcases htl with ⟨rfl, -⟩ | ⟨fp, rfl, hfp, -⟩
    · simpa using scanLoop_stops _ _ _ _ _ hr
    · rw [List.cons_append, scanLoop]
      simp only [Bool.false_eq_true, false_and, if_false, point_not_digit, and_self, if_true]
      rw [scanLoop_digits fp hfp, scanLoop_stops _ _ _ _ _ hr]
      simp
  cases hs : ip ++ tl ++ r with
  | nil => rw [hs] at key; simpa [scanFloat, scanLoop] using key
  | cons c cs =>
    have hc : c ≠ '+' ∧ c ≠ '-' := by
      cases ip with
      | nil =>
        rcases htl with ⟨-, hne⟩ | ⟨fp, rfl, -, -⟩
        · exact absurd rfl hne
        · simp only [List.nil_append, List.cons_append, List.cons.injEq] at hs
          rw [← hs.1]; decide
      | cons d ds =>
        simp only [List.cons_append, List.cons.injEq] at hs
        have hd : isdigit d = true := hip d (by simp)
        rw [hs.1] at hd
        constructor <;> rintro rfl <;> revert hd <;> decide
    rw [scanFloat]
    simp only [hc.1, hc.2, or_self, if_false]
    rw [← hs]; exact key

theorem decimal_neg_exp (n k : Nat) :
    decimal false n ((0 : Int) - (k : Int)) =
      if n = 0 then Double.zero false else Double.round false n (10 ^ k) := by
  unfold decimal
  by_cases hn : n = 0
  · simp [hn]
  · simp only [hn, if_false]
    cases k with
    | zero => simp
    | succ k =>
      have h1 : ((0 : Int) - ((k + 1 : Nat) : Int)) < 0 := by omega
      have h2 : (-((0 : Int) - ((k + 1 : Nat) : Int))).toNat = k + 1 := by omega
      rw [if_pos h1, h2]

theorem filter_digits (ip : List Char) (hip : ∀ c ∈ ip, isdigit c = true) :
    ip.filter isdigit = ip :=
  List.filter_eq_self.mpr hip

theorem literal_head {s : List Char} (h : literalShape s = true) :
    ∃ c cs, s = c :: cs ∧ (isdigit c = true ∨ c = '.') := by
  obtain ⟨ip, tl, rfl, hip, htl⟩ := literalShape_cases h
  cases ip with
  | nil =>
    rcases htl with ⟨-, hne⟩ | ⟨fp, rfl, -, -⟩
    · exact absurd rfl hne
    · exact ⟨_, _, rfl, Or.inr rfl⟩
  | cons d ds => exact ⟨d, ds ++ tl, rfl, Or.inl (hip d (by simp))⟩

theorem takeSign_literal {s : List Char} (h : literalShape s = true) :
    takeSign s = (false, s) := by
  obtain ⟨c, cs, rfl, hc⟩ := literal_head h
  have : c ≠ '-' ∧ c ≠ '+' := by
    rcases hc with hc | rfl
    · constructor <;> rintro rfl <;> revert hc <;> decide
    · decide
  simp [takeSign, this.1, this.2]

theorem strtod_literal {s : List Char} (h : literalShape s = true) :
    strtod s = some (literalValue s, []) := by
  have hsign := takeSign_literal h
  obtain ⟨ip, tl, rfl, hip, htl⟩ := literalShape_cases h
  unfold strtod literalValue
  rw [hsign]
  rcases htl with ⟨rfl, hne⟩ | ⟨fp, rfl, hfp, hne⟩
  · have h1 := takeWhile_digits ip [] hip (by simp)
    simp only [List.append_nil] at h1 ⊢
    simp only [h1.1, h1.2, hne, false_and, if_false, takeExponent, filter_digits ip hip,
      List.length_nil]
    rw [decimal_neg_exp]
    simp
  · have h1 := takeWhile_digits ip ('.' :: fp) hip (by simp [point_not_digit])
    have h2 := takeWhile_digits fp [] hfp (by simp)
    simp only [List.append_nil] at h2
    have hf : (ip ++ '.' :: fp).filter isdigit = ip ++ fp := by
      rw [List.filter_append, filter_digits ip hip, List.filter_cons]
      simp [point_not_digit, filter_digits fp hfp]
    have hnil : ¬ (ip = [] ∧ fp = []) := by
      rintro ⟨rfl, rfl⟩
      rcases hne with h | h <;> exact h rfl
    simp only [h1.1, h1.2, if_true, h2.1, h2.2, hnil, if_false, takeExponent, hf,
      List.length_cons]
    rw [decimal_neg_exp]
    simp

theorem skipWs_literal {s : List Char} (h : literalShape s = true) (r : List Char) :
    skipWs (s ++ r) = s ++ r := by
  obtain ⟨c, cs, rfl, hc⟩ := literal_head h
  apply skipWs_cons_of_not_space
  rcases hc with hc | rfl
  · exact isdigit_not_space hc
  · decide

/-- The extraction of a literal that is followed by the end of the stream or by a
character that cannot continue a number: its value, and the stream after it. -/
theorem extractDouble_literal {s : List Char} (h : literalShape s = true)
    (hf : (literalValue s).isFinite = true) (r : List Char) (hr : stops r = true) :
    extractDouble (s ++ r) = some (literalValue s, r) := by
  unfold extractDouble
  rw [skipWs_literal h, scanFloat_literal h r hr]
  simp only [strtod_literal h, if_true]
  cases hv : literalValue s with
  | nan => simp [hv, Double.isFinite] at hf
  | inf sg => simp [hv, Double.isFinite] at hf
  | fin sg m e => rfl

set_option maxRecDepth 1000000 in
set_option exponentiation.threshold 2000 in
/-- The range condition of `Literal` at work: the digits of `10^309` have the literal
shape, their value is beyond the largest finite `double`, and the extraction fails on
them, so that `parse` throws `"Expected number"`. -/
theorem digits_beyond_range :
    literalShape ('1' :: List.replicate 309 '0') = true ∧
    (literalValue ('1' :: List.replicate 309 '0')).isFinite = false ∧
    extractDouble ('1' :: List.replicate 309 '0') = none ∧
    parse (String.mk ('1' :: List.replicate 309 '0')) = some (.error .ExpectedNumber) := by
  decide

/-! ### The depth bound

A result obtained within some depth is the result at every larger depth. -/

theorem fuel_succ (f : Nat) :
    (∀ input r, parsePrimary f input = some r → parsePrimary (f + 1) input = some r) ∧
    (∀ node input r, parseTermLoop f node input = some r →
      parseTermLoop (f + 1) node input = some r) ∧
    (∀ input r, parseTerm f input = some r → parseTerm (f + 1) input = some r) ∧
    (∀ node input r, parseExpressionLoop f node input = some r →
      parseExpressionLoop (f + 1) node input = some r) ∧
    (∀ input r, parseExpression f input = some r → parseExpression (f + 1) input = some r) := by
  induction f with
  | zero => simp [parsePrimary, parseTermLoop, parseTerm, parseExpressionLoop, parseExpression]
  | succ f ih =>
    obtain ⟨ihP, ihTL, ihT, ihEL, ihE⟩ := ih
    refine ⟨?_, ?_, ?_, ?_, ?_⟩
    · intro input r h
      rw [parsePrimary] at h ⊢
      split_ifs at h ⊢ with h1 h2
      · cases hp : parsePrimary f (get (peek input).2).2 with
        | none => rw [hp] at h; simp at h
        | some y => rw [ihP _ _ hp]; rw [hp] at h; exact h
      · cases hp : parseExpression f (get (peek (peek input).2).2).2 with
        | none => rw [hp] at h; simp at h
        | some y => rw [ihE _ _ hp]; rw [hp] at h; exact h
      · exact h
    · intro node input r h
      rw [parseTermLoop] at h ⊢
      split_ifs at h ⊢ with h1
      · cases hp : parsePrimary f (get (peek input).2).2 with
        | none => rw [hp] at h; simp at h
        | some y =>
          rw [ihP _ _ hp]; rw [hp] at h
          rcases y with err | ⟨rhs, rest⟩
          · exact h
          · exact ihTL _ _ _ h
      · exact h
    · intro input r h
      rw [parseTerm] at h ⊢
      cases hp : parsePrimary f input with
      | none => rw [hp] at h; simp at h
      | some y =>
        rw [ihP _ _ hp]; rw [hp] at h
        rcases y with err | ⟨node, rest⟩
        · exact h
        · exact ihTL _ _ _ h
    · intro node input r h
      rw [parseExpressionLoop] at h ⊢
      split_ifs at h ⊢ with h1
      · cases hp : parseTerm f (get (peek input).2).2 with
        | none => rw [hp] at h; simp at h
        | some y =>
          rw [ihT _ _ hp]; rw [hp] at h
          rcases y with err | ⟨rhs, rest⟩
          · exact h
          · exact ihEL _ _ _ h
      · exact h
    · intro input r h
      rw [parseExpression] at h ⊢
      cases hp : parseTerm f input with
      | none => rw [hp] at h; simp at h
      | some y =>
        rw [ihT _ _ hp]; rw [hp] at h
        rcases y with err | ⟨node, rest⟩
        · exact h
        · exact ihEL _ _ _ h

theorem parseExpression_mono {f g : Nat} (hfg : f ≤ g) {input : List Char}
    {r : Except ParseError (Expression × List Char)} (h : parseExpression f input = some r) :
    parseExpression g input = some r := by
  induction hfg with
  | refl => exact h
  | step _ ih => exact (fuel_succ _).2.2.2.2 _ _ ih

/-- A result of `parseExpression` within the depth `parse` allows is the result of
`parse`. -/
theorem parse_of_parseExpression {str : String} {f : Nat} (hf : f ≤ 4 * str.length + 3)
    {r : Except ParseError (Expression × List Char)}
    (h : parseExpression f str.toList = some r) :
    parse str = some (r.map Prod.fst) := by
  unfold parse
  rw [parseExpression_mono hf h]
  rcases r with err | ⟨e, rest⟩ <;> rfl

/-! ### One step of each parsing function -/

theorem peek_skipWs (input : List Char) : peek (skipWs input) = peek input := by
  simp [peek, skipWs_skipWs]

theorem get_skipWs (input : List Char) : get (skipWs input) = get input := by
  simp [get, skipWs_skipWs]

theorem peek_snd (input : List Char) : (peek input).2 = skipWs input := rfl

theorem peek_cons {c : Char} (cs : List Char) (h : isspace c = false) :
    peek (c :: cs) = (some c, c :: cs) := by
  simp [peek, skipWs, h]

theorem get_cons {c : Char} (cs : List Char) (h : isspace c = false) :
    get (c :: cs) = (some c, cs) := by
  simp [get, skipWs, h]

theorem skipWs_space (c : Char) (cs : List Char) (h : isspace c = true) :
    skipWs (c :: cs) = skipWs cs := by
  simp [skipWs, h]

/-- Whitespace before a primary, a term or an expression, or before the operator a loop
looks for, is skipped. -/
theorem parse_skipWs (f : Nat) (input : List Char) :
    parsePrimary f (skipWs input) = parsePrimary f input ∧
    (∀ node, parseTermLoop f node (skipWs input) = parseTermLoop f node input) ∧
    parseTerm f (skipWs input) = parseTerm f input ∧
    (∀ node, parseExpressionLoop f node (skipWs input) = parseExpressionLoop f node input) ∧
    parseExpression f (skipWs input) = parseExpression f input := by
  have hP : ∀ f, parsePrimary f (skipWs input) = parsePrimary f input := by
    intro f
    cases f with
    | zero => simp [parsePrimary]
    | succ f => rw [parsePrimary, parsePrimary, peek_skipWs]
  have hT : ∀ f, parseTerm f (skipWs input) = parseTerm f input := by
    intro f
    cases f with
    | zero => simp [parseTerm]
    | succ f => rw [parseTerm, parseTerm, hP]
  refine ⟨hP f, ?_, hT f, ?_, ?_⟩
  · intro node
    cases f with
    | zero => simp [parseTermLoop]
    | succ f => rw [parseTermLoop, parseTermLoop, peek_skipWs]
  · intro node
    cases f with
    | zero => simp [parseExpressionLoop]
    | succ f => rw [parseExpressionLoop, parseExpressionLoop, peek_skipWs]
  · cases f with
    | zero => simp [parseExpression]
    | succ f => rw [parseExpression, parseExpression, hT]

theorem parsePrimary_space (f : Nat) (cs : List Char) :
    parsePrimary f (' ' :: cs) = parsePrimary f cs := by
  rw [← (parse_skipWs f (' ' :: cs)).1, skipWs_space _ _ (by decide), (parse_skipWs f cs).1]

theorem parseTerm_space (f : Nat) (cs : List Char) :
    parseTerm f (' ' :: cs) = parseTerm f cs := by
  rw [← (parse_skipWs f (' ' :: cs)).2.2.1, skipWs_space _ _ (by decide),
    (parse_skipWs f cs).2.2.1]

theorem parseTermLoop_space (f : Nat) (node : Expression) (cs : List Char) :
    parseTermLoop f node (' ' :: cs) = parseTermLoop f node cs := by
  rw [← (parse_skipWs f (' ' :: cs)).2.1, skipWs_space _ _ (by decide),
    (parse_skipWs f cs).2.1]

theorem parseExpressionLoop_space (f : Nat) (node : Expression) (cs : List Char) :
    parseExpressionLoop f node (' ' :: cs) = parseExpressionLoop f node cs := by
  rw [← (parse_skipWs f (' ' :: cs)).2.2.2.1, skipWs_space _ _ (by decide),
    (parse_skipWs f cs).2.2.2.1]

theorem parsePrimary_minus (f : Nat) (cs : List Char) :
    parsePrimary (f + 1) ('-' :: cs) =
      match parsePrimary f cs with
      | some (.ok (operand, rest)) => some (.ok (.Negate operand, rest))
      | other => other := by
  rw [parsePrimary, peek_cons cs (by decide)]
  simp only [if_true, get_cons cs (show isspace '-' = false by decide)]

theorem parsePrimary_paren (f : Nat) (cs : List Char) :
    parsePrimary (f + 1) ('(' :: cs) =
      match parseExpression f cs with
      | some (.ok (expr, rest)) =>
        if (get rest).1 = some ')' then some (.ok (expr, (get rest).2))
        else some (.error .ExpectedCloseParen)
      | other => other := by
  rw [parsePrimary, peek_cons cs (by decide)]
  simp only [peek_cons cs (show isspace '(' = false by decide),
    get_cons cs (show isspace '(' = false by decide)]
  rw [if_neg (by decide), if_pos trivial]

/-- A literal at a primary position, followed by the end of the input or by a character
that cannot continue a number, is parsed as the `Constant` of its value. -/
theorem parsePrimary_literal (f : Nat) {s : List Char} (h : literalShape s = true)
    (hf : (literalValue s).isFinite = true) (r : List Char) (hr : stops r = true) :
    parsePrimary (f + 1) (s ++ r) = some (.ok (.Constant (literalValue s), r)) := by
  have hx := extractDouble_literal h hf r hr
  obtain ⟨c, cs, rfl, hc⟩ := literal_head h
  have hsp : isspace c = false := by
    rcases hc with hc | rfl
    · exact isdigit_not_space hc
    · decide
  have hne : c ≠ '-' ∧ c ≠ '(' := by
    rcases hc with hc | rfl
    · constructor <;> rintro rfl <;> revert hc <;> decide
    · decide
  rw [List.cons_append] at hx ⊢
  rw [parsePrimary]
  simp only [peek_cons _ hsp, Option.some.injEq, hne.1, hne.2, if_false, hx]

theorem parseTermLoop_star (f : Nat) (node : Expression) (cs : List Char) :
    parseTermLoop (f + 1) node ('*' :: cs) =
      match parsePrimary f cs with
      | some (.ok (rhs, rest)) => parseTermLoop f (.Multiply node rhs) rest
      | other => other := by
  rw [parseTermLoop, peek_cons cs (by decide)]
  simp only [if_true, get_cons cs (show isspace '*' = false by decide)]

theorem parseTermLoop_done (f : Nat) (node : Expression) (input : List Char)
    (h : (skipWs input).head? ≠ some '*') :
    parseTermLoop (f + 1) node input = some (.ok (node, skipWs input)) := by
  rw [parseTermLoop]
  simp only [peek]
  rw [if_neg h]

theorem parseExpressionLoop_plus (f : Nat) (node : Expression) (cs : List Char) :
    parseExpressionLoop (f + 1) node ('+' :: cs) =
      match parseTerm f cs with
      | some (.ok (rhs, rest)) => parseExpressionLoop f (.Add node rhs) rest
      | other => other := by
  rw [parseExpressionLoop, peek_cons cs (by decide)]
  simp only [if_true, get_cons cs (show isspace '+' = false by decide)]

theorem parseExpressionLoop_done (f : Nat) (node : Expression) (input : List Char)
    (h : (skipWs input).head? ≠ some '+') :
    parseExpressionLoop (f + 1) node input = some (.ok (node, skipWs input)) := by
  rw [parseExpressionLoop]
  simp only [peek]
  rw [if_neg h]

theorem parsePrimary_literal_end (f : Nat) {s : List Char} (h : literalShape s = true)
    (hf : (literalValue s).isFinite = true) :
    parsePrimary (f + 1) s = some (.ok (.Constant (literalValue s), [])) := by
  simpa using parsePrimary_literal f h hf [] rfl

theorem parseTermLoop_nil (f : Nat) (node : Expression) :
    parseTermLoop (f + 1) node [] = some (.ok (node, [])) :=
  parseTermLoop_done f node [] (by simp [skipWs])

theorem parseTermLoop_cons (f : Nat) (node : Expression) {c : Char} (cs : List Char)
    (hsp : isspace c = false) (hc : c ≠ '*') :
    parseTermLoop (f + 1) node (c :: cs) = some (.ok (node, c :: cs)) := by
  rw [parseTermLoop_done f node _ (by simpa [skipWs, hsp] using hc),
    skipWs_cons_of_not_space _ hsp]

theorem parseExpressionLoop_nil (f : Nat) (node : Expression) :
    parseExpressionLoop (f + 1) node [] = some (.ok (node, [])) :=
  parseExpressionLoop_done f node [] (by simp [skipWs])

theorem parseExpressionLoop_cons (f : Nat) (node : Expression) {c : Char} (cs : List Char)
    (hsp : isspace c = false) (hc : c ≠ '+') :
    parseExpressionLoop (f + 1) node (c :: cs) = some (.ok (node, c :: cs)) := by
  rw [parseExpressionLoop_done f node _ (by simpa [skipWs, hsp] using hc),
    skipWs_cons_of_not_space _ hsp]

theorem stops_space (r : List Char) : stops (' ' :: r) = true := rfl

theorem stops_close (r : List Char) : stops (')' :: r) = true := rfl

theorem add_mul_list (f : Nat) {a b c : List Char}
    (ha : literalShape a = true) (hfa : (literalValue a).isFinite = true)
    (hb : literalShape b = true) (hfb : (literalValue b).isFinite = true)
    (hc : literalShape c = true) (hfc : (literalValue c).isFinite = true) :
    parseExpression (f + 6) (a ++ ' ' :: '+' :: ' ' :: (b ++ ' ' :: '*' :: ' ' :: c)) =
      some (.ok (.Add (.Constant (literalValue a))
        (.Multiply (.Constant (literalValue b)) (.Constant (literalValue c))), [])) := by
  rw [parseExpression, parseTerm, parsePrimary_literal _ ha hfa _ (stops_space _)]
  simp only []
  rw [parseTermLoop_space, parseTermLoop_cons _ _ _ (by decide) (by decide)]
  simp only []
  rw [parseExpressionLoop_plus, parseTerm_space, parseTerm,
    parsePrimary_literal _ hb hfb _ (stops_space _)]
  simp only []
  rw [parseTermLoop_space, parseTermLoop_star, parsePrimary_space,
    parsePrimary_literal_end _ hc hfc]
  simp only []
  rw [parseTermLoop_nil]
  simp only []
  rw [parseExpressionLoop_nil]

theorem mul_add_list (f : Nat) {a b c : List Char}
    (ha : literalShape a = true) (hfa : (literalValue a).isFinite = true)
    (hb : literalShape b = true) (hfb : (literalValue b).isFinite = true)
    (hc : literalShape c = true) (hfc : (literalValue c).isFinite = true) :
    parseExpression (f + 6) (a ++ ' ' :: '*' :: ' ' :: (b ++ ' ' :: '+' :: ' ' :: c)) =
      some (.ok (.Add (.Multiply (.Constant (literalValue a)) (.Constant (literalValue b)))
        (.Constant (literalValue c)), [])) := by
  rw [parseExpression, parseTerm, parsePrimary_literal _ ha hfa _ (stops_space _)]
  simp only []
  rw [parseTermLoop_space, parseTermLoop_star, parsePrimary_space,
    parsePrimary_literal _ hb hfb _ (stops_space _)]
  simp only []
  rw [parseTermLoop_space, parseTermLoop_cons _ _ _ (by decide) (by decide)]
  simp only []
  rw [parseExpressionLoop_plus, parseTerm_space, parseTerm, parsePrimary_literal_end _ hc hfc]
  simp only []
  rw [parseTermLoop_nil]
  simp only []
  rw [parseExpressionLoop_nil]

/-- The result of `parse` from a result of `parseExpression` on the characters of the
string, within the depth `parse` allows. -/
theorem parse_of_list {str : String} {l : List Char} (hl : str.toList = l) {f : Nat}
    (hf : f ≤ 4 * l.length + 3) {e : Expression} {rest : List Char}
    (h : parseExpression f l = some (.ok (e, rest))) : parse str = some (.ok e) := by
  subst hl
  exact parse_of_parseExpression (r := .ok (e, rest)) hf h

set_option maxRecDepth 100000 in
/-- C6: multiplication binds tighter than addition.  For unsigned decimal literals `a`,
`b`, `c`, `parse("a + b * c")` is `Add(a, Multiply(b, c))` and `parse("a * b + c")` is
`Add(Multiply(a, b), c)`; `parse("13.75 + 22 * 15")` succeeds and its tree evaluates
to `343.75`. -/
theorem multiplication_binds_tighter (a b c : String)
    (ha : Literal a) (hb : Literal b) (hc : Literal c) :
    parse (a ++ " + " ++ b ++ " * " ++ c) =
      some (.ok (.Add (lit a) (.Multiply (lit b) (lit c)))) ∧
    parse (a ++ " * " ++ b ++ " + " ++ c) =
      some (.ok (.Add (.Multiply (lit a) (lit b)) (lit c))) ∧
    (parse "13.75 + 22 * 15").map (Except.map evaluate) =
      some (.ok (Double.fin false 6047313952768000 (-44))) ∧
    Double.toRat (Double.fin false 6047313952768000 (-44)) = some 343.75 := by
  refine ⟨?_, ?_, by decide, ?_⟩
  · exact parse_of_list (by simp) (by simp; omega) (add_mul_list 0 ha.1 ha.2 hb.1 hb.2 hc.1 hc.2)
  · exact parse_of_list (by simp) (by simp; omega) (mul_add_list 0 ha.1 ha.2 hb.1 hb.2 hc.1 hc.2)
  · simp only [Double.toRat]
    norm_num

set_option maxRecDepth 100000 in
/-- C6 at `a = 13.75`, `b = 22`, `c = 15`. -/
theorem multiplication_binds_tighter_witness :
    parse ("13.75" ++ " + " ++ "22" ++ " * " ++ "15") =
      some (.ok (.Add (lit "13.75") (.Multiply (lit "22") (lit "15")))) :=
  (multiplication_binds_tighter "13.75" "22" "15" (by decide) (by decide) (by decide)).1

theorem mul_paren_add_list (f : Nat) {a b c : List Char}
    (ha : literalShape a = true) (hfa : (literalValue a).isFinite = true)
    (hb : literalShape b = true) (hfb : (literalValue b).isFinite = true)
    (hc : literalShape c = true) (hfc : (literalValue c).isFinite = true) :
    parseExpression (f + 8)
        (a ++ ' ' :: '*' :: ' ' :: '(' :: (b ++ ' ' :: '+' :: ' ' :: (c ++ [ ')']))) =
      some (.ok (.Multiply (.Constant (literalValue a))
        (.Add (.Constant (literalValue b)) (.Constant (literalValue c))), [])) := by
  rw [parseExpression, parseTerm, parsePrimary_literal _ ha hfa _ (stops_space _)]
  simp only []
  rw [parseTermLoop_space, parseTermLoop_star, parsePrimary_space, parsePrimary_paren,
    parseExpression, parseTerm, parsePrimary_literal _ hb hfb _ (stops_space _)]
  simp only []
  rw [parseTermLoop_space, parseTermLoop_cons _ _ _ (by decide) (by decide)]
  simp only []
  rw [parseExpressionLoop_plus, parseTerm_space, parseTerm,
    parsePrimary_literal _ hc hfc _ (stops_close _)]
  simp only []
  rw [parseTermLoop_cons _ _ _ (by decide) (by decide)]
  simp only []
  rw [parseExpressionLoop_cons _ _ _ (by decide) (by decide)]
  simp only [get_cons [] (show isspace ')' = false by decide), if_true]
  rw [parseTermLoop_nil]
  simp only []
  rw [parseExpressionLoop_nil]

set_option maxRecDepth 100000 in
/-- C7: parentheses override precedence.  For unsigned decimal literals `a`, `b`, `c`,
`parse("a * (b + c)")` is `Multiply(a, Add(b, c))`; `parse("2 * (3 + 4)")` succeeds and
its tree evaluates to `14`. -/
theorem parentheses_override_precedence (a b c : String)
    (ha : Literal a) (hb : Literal b) (hc : Literal c) :
    parse (a ++ " * (" ++ b ++ " + " ++ c ++ ")") =
      some (.ok (.Multiply (lit a) (.Add (lit b) (lit c)))) ∧
    (parse "2 * (3 + 4)").map (Except.map evaluate) = some (.ok (Double.ofNat 14)) ∧
    Double.toRat (Double.ofNat 14) = some 14 := by
  refine ⟨?_, by decide, ?_⟩
  · exact parse_of_list (by simp) (by simp; omega)
      (mul_paren_add_list 0 ha.1 ha.2 hb.1 hb.2 hc.1 hc.2)
  · have h : Double.ofNat 14 = Double.fin false 7881299347898368 (-49) := by decide
    rw [h]
    simp only [Double.toRat]
    norm_num

set_option maxRecDepth 100000 in
/-- C7 at `a = 2`, `b = 3`, `c = 4`. -/
theorem parentheses_override_precedence_witness :
    parse ("2" ++ " * (" ++ "3" ++ " + " ++ "4" ++ ")") =
      some (.ok (.Multiply (lit "2") (.Add (lit "3") (lit "4")))) :=
  (parentheses_override_precedence "2" "3" "4" (by decide) (by decide) (by decide)).1

theorem neg_mul_list (f : Nat) {a b : List Char}
    (ha : literalShape a = true) (hfa : (literalValue a).isFinite = true)
    (hb : literalShape b = true) (hfb : (literalValue b).isFinite = true) :
    parseExpression (f + 4) ('-' :: (a ++ ' ' :: '*' :: ' ' :: b)) =
      some (.ok (.Multiply (.Negate (.Constant (literalValue a)))
        (.Constant (literalValue b)), [])) := by
  rw [parseExpression, parseTerm, parsePrimary_minus,
    parsePrimary_literal _ ha hfa _ (stops_space _)]
  simp only []
  rw [parseTermLoop_space, parseTermLoop_star, parsePrimary_space,
    parsePrimary_literal_end _ hb hfb]
  simp only []
  rw [parseTermLoop_nil]
  simp only []
  rw [parseExpressionLoop_nil]

theorem neg_add_list (f : Nat) {a b : List Char}
    (ha : literalShape a = true) (hfa : (literalValue a).isFinite = true)
    (hb : literalShape b = true) (hfb : (literalValue b).isFinite = true) :
    parseExpression (f + 4) ('-' :: (a ++ ' ' :: '+' :: ' ' :: b)) =
      some (.ok (.Add (.Negate (.Constant (literalValue a)))
        (.Constant (literalValue b)), [])) := by
  rw [parseExpression, parseTerm, parsePrimary_minus,
    parsePrimary_literal _ ha hfa _ (stops_space _)]
  simp only []
  rw [parseTermLoop_space, parseTermLoop_cons _ _ _ (by decide) (by decide)]
  simp only []
  rw [parseExpressionLoop_plus, parseTerm_space, parseTerm, parsePrimary_literal_end _ hb hfb]
  simp only []
  rw [parseTermLoop_nil]
  simp only []
  rw [parseExpressionLoop_nil]

theorem neg_neg_list (f : Nat) {a : List Char}
    (ha : literalShape a = true) (hfa : (literalValue a).isFinite = true) :
    parseExpression (f + 5) ('-' :: '-' :: a) =
      some (.ok (.Negate (.Negate (.Constant (literalValue a))), [])) := by
  rw [parseExpression, parseTerm, parsePrimary_minus, parsePrimary_minus,
    parsePrimary_literal_end _ ha hfa]
  simp only []
  rw [parseTermLoop_nil]
  simp only []
  rw [parseExpressionLoop_nil]

set_option maxRecDepth 100000 in
/-- C8: a prefix `-` applies to the primary that follows it and binds tighter than the
binary operators.  For unsigned decimal literals `a`, `b`, `parse("-a * b")` is
`Multiply(Negate(a), b)`, `parse("-a + b")` is `Add(Negate(a), b)` and `parse("--a")` is
`Negate(Negate(a))`; `parse("-(3 + 1) * 2")` is `Multiply(Negate(Add(3, 1)), 2)`, which
evaluates to `-8`. -/
theorem negation_binds_tightest (a b : String) (ha : Literal a) (hb : Literal b) :
    parse ("-" ++ a ++ " * " ++ b) = some (.ok (.Multiply (.Negate (lit a)) (lit b))) ∧
    parse ("-" ++ a ++ " + " ++ b) = some (.ok (.Add (.Negate (lit a)) (lit b))) ∧
    parse ("--" ++ a) = some (.ok (.Negate (.Negate (lit a)))) ∧
    parse "-(3 + 1) * 2" =
      some (.ok (.Multiply (.Negate (.Add (lit "3") (lit "1"))) (lit "2"))) ∧
    evaluate (.Multiply (.Negate (.Add (lit "3") (lit "1"))) (lit "2")) =
      Double.neg (Double.ofNat 8) ∧
    Double.toRat (Double.neg (Double.ofNat 8)) = some (-8) := by
  refine ⟨?_, ?_, ?_, by decide, by decide, ?_⟩
  · exact parse_of_list (by simp) (by simp; omega) (neg_mul_list 0 ha.1 ha.2 hb.1 hb.2)
  · exact parse_of_list (by simp) (by simp; omega) (neg_add_list 0 ha.1 ha.2 hb.1 hb.2)
  · exact parse_of_list (by simp) (by simp; omega) (neg_neg_list 0 ha.1 ha.2)
  · have h : Double.neg (Double.ofNat 8) = Double.fin true 4503599627370496 (-49) := by decide
    rw [h]
    simp only [Double.toRat]
    norm_num

set_option maxRecDepth 100000 in
/-- C8 at `a = 3`, `b = 2`. -/
theorem negation_binds_tightest_witness :
    parse ("-" ++ "3" ++ " * " ++ "2") = some (.ok (.Multiply (.Negate (lit "3")) (lit "2"))) :=
  (negation_binds_tightest "3" "2" (by decide) (by decide)).1

/-! ### Chains of one operator -/

theorem joined_toList (sep x : String) (xs : List String) :
    (joined sep x xs).toList = x.toList ++ joinedTail sep.toList xs := by
  induction xs generalizing x with
  | nil => simp [joined, joinedTail]
  | cons y ys ih =>
    have := ih (x ++ sep ++ y)
    simp only [joined, List.foldl_cons] at this ⊢
    rw [this]
    simp [joinedTail]

theorem joinedTail_length (sep : List Char) (xs : List String) :
    xs.length * sep.length ≤ (joinedTail sep xs).length := by
  induction xs with
  | nil => simp
  | cons y ys ih =>
    simp only [joinedTail, List.length_append, List.length_cons, Nat.succ_mul]
    omega

theorem literalShape_length_pos {s : List Char} (h : literalShape s = true) :
    0 < s.length := by
  obtain ⟨c, cs, rfl, -⟩ := literal_head h
  simp

theorem stops_joinedTail (op : Char) (xs : List String) :
    stops (joinedTail [ ' ', op, ' '] xs) = true := by
  cases xs with
  | nil => rfl
  | cons y ys => rfl

theorem plus_chain_loop (xs : List String) (hxs : ∀ y ∈ xs, Literal y) (f : Nat)
    (node : Expression) :
    parseExpressionLoop (f + xs.length + 3) node (joinedTail [ ' ', '+', ' '] xs) =
      some (.ok (xs.foldl (fun acc y => .Add acc (lit y)) node, [])) := by
  induction xs generalizing node with
  | nil => exact parseExpressionLoop_nil _ _
  | cons y ys ih =>
    have hy := hxs y (by simp)
    have hst := stops_joinedTail '+' ys
    rw [show f + (y :: ys).length + 3 = (f + ys.length + 3) + 1 by
      rw [List.length_cons]; omega]
    simp only [joinedTail, List.cons_append, List.nil_append]
    rw [parseExpressionLoop_space, parseExpressionLoop_plus, parseTerm_space, parseTerm,
      parsePrimary_literal _ hy.1 hy.2 _ hst]
    simp only []
    rw [parseTermLoop_done _ _ _ (by
      cases ys with
      | nil => simp [joinedTail, skipWs]
      | cons z zs => simp [joinedTail, skipWs, isspace])]
    simp only []
    rw [(parse_skipWs _ _).2.2.2.1]
    exact ih (fun z hz => hxs z (by simp [hz])) (.Add node (lit y))

theorem star_chain_loop (xs : List String) (hxs : ∀ y ∈ xs, Literal y) (f : Nat)
    (node : Expression) :
    parseTermLoop (f + xs.length + 2) node (joinedTail [ ' ', '*', ' '] xs) =
      some (.ok (xs.foldl (fun acc y => .Multiply acc (lit y)) node, [])) := by
  induction xs generalizing node with
  | nil => exact parseTermLoop_nil _ _
  | cons y ys ih =>
    have hy := hxs y (by simp)
    have hst := stops_joinedTail '*' ys
    rw [show f + (y :: ys).length + 2 = (f + ys.length + 2) + 1 by
      rw [List.length_cons]; omega]
    simp only [joinedTail, List.cons_append, List.nil_append]
    rw [parseTermLoop_space, parseTermLoop_star, parsePrimary_space,
      parsePrimary_literal _ hy.1 hy.2 _ hst]
    simp only []
    exact ih (fun z hz => hxs z (by simp [hz])) (.Multiply node (lit y))

theorem plus_chain_list (x : String) (xs : List String) (hx : Literal x)
    (hxs : ∀ y ∈ xs, Literal y) :
    parseExpression (xs.length + 4) (x.toList ++ joinedTail [ ' ', '+', ' '] xs) =
      some (.ok (xs.foldl (fun acc y => .Add acc (lit y)) (lit x), [])) := by
  rw [parseExpression, parseTerm,
    parsePrimary_literal _ hx.1 hx.2 _ (stops_joinedTail '+' xs)]
  simp only []
  rw [parseTermLoop_done _ _ _ (by
    cases xs with
    | nil => simp [joinedTail, skipWs]
    | cons z zs => simp [joinedTail, skipWs, isspace])]
  simp only []
  rw [(parse_skipWs _ _).2.2.2.1]
  have := plus_chain_loop xs hxs 0 (lit x)
  rw [Nat.zero_add] at this
  exact this

theorem star_chain_list (x : String) (xs : List String) (hx : Literal x)
    (hxs : ∀ y ∈ xs, Literal y) :
    parseExpression (xs.length + 4) (x.toList ++ joinedTail [ ' ', '*', ' '] xs) =
      some (.ok (xs.foldl (fun acc y => .Multiply acc (lit y)) (lit x), [])) := by
  rw [parseExpression, parseTerm,
    parsePrimary_literal _ hx.1 hx.2 _ (stops_joinedTail '*' xs)]
  simp only []
  have := star_chain_loop xs hxs 0 (lit x)
  rw [Nat.zero_add] at this
  rw [show Expression.Constant (literalValue x.toList) = lit x from rfl, this]
  simp only []
  rw [parseExpressionLoop_nil]

theorem chain_bound (x : String) (sep : List Char) (hsep : sep.length = 3)
    (xs : List String) (hx : Literal x) :
    xs.length + 4 ≤ 4 * (x.toList ++ joinedTail sep xs).length + 3 := by
  have h1 := joinedTail_length sep xs
  have h2 := literalShape_length_pos hx.1
  rw [hsep] at h1
  rw [List.length_append]
  omega

/-- C9: `+` and `*` are left-associative.  For unsigned decimal literals `x1 .. xn`
(`n ≥ 1`), `parse("x1 + x2 + ... + xn")` is the left-nested tree
`Add(...Add(Add(x1, x2), x3)..., xn)`, and `parse("x1 * x2 * ... * xn")` is the
left-nested tree `Multiply(...Multiply(Multiply(x1, x2), x3)..., xn)`. -/
theorem chains_left_associative (x : String) (xs : List String) (hx : Literal x)
    (hxs : ∀ y ∈ xs, Literal y) :
    parse (joined " + " x xs) =
      some (.ok (xs.foldl (fun acc y => .Add acc (lit y)) (lit x))) ∧
    parse (joined " * " x xs) =
      some (.ok (xs.foldl (fun acc y => .Multiply acc (lit y)) (lit x))) := by
  constructor
  · exact parse_of_list (joined_toList " + " x xs) (chain_bound x [ ' ', '+', ' '] rfl xs hx)
      (plus_chain_list x xs hx hxs)
  · exact parse_of_list (joined_toList " * " x xs) (chain_bound x [ ' ', '*', ' '] rfl xs hx)
      (star_chain_list x xs hx hxs)

set_option maxRecDepth 100000 in
/-- C9 at the three operands `1`, `2`, `3`: `parse("1 + 2 + 3")` is
`Add(Add(1, 2), 3)`. -/
theorem chains_left_associative_witness :
    parse "1 + 2 + 3" = some (.ok (.Add (.Add (lit "1") (lit "2")) (lit "3"))) :=
  (chains_left_associative "1" [ "2", "3"] (by decide) (by decide)).1

/-! ### Inputs that do not start a primary -/

theorem extractDouble_none (input : List Char)
    (h : ∀ c, (skipWs input).head? = some c →
      isdigit c = false ∧ c ≠ '.' ∧ c ≠ '-' ∧ c ≠ '+') :
    extractDouble input = none := by
  unfold extractDouble
  cases hs : skipWs input with
  | nil => simp [scanFloat, strtod, takeSign]
  | cons c cs =>
    obtain ⟨h1, h2, h3, h4⟩ := h c (by rw [hs]; rfl)
    simp [scanFloat, scanLoop, h1, h2, h3, h4, strtod, takeSign]

theorem parsePrimary_expected_number (f : Nat) (input : List Char)
    (h : ∀ c, (skipWs input).head? = some c →
      isdigit c = false ∧ c ≠ '.' ∧ c ≠ '-' ∧ c ≠ '(' ∧ c ≠ '+') :
    parsePrimary (f + 1) input = some (.error .ExpectedNumber) := by
  have h1 : (peek input).1 ≠ some '-' := fun hc => (h _ hc).2.2.1 rfl
  have h2 : (peek (peek input).2).1 ≠ some '(' := by
    rw [peek_snd, peek_skipWs]
    exact fun hc => (h _ hc).2.2.2.1 rfl
  have h3 : extractDouble (peek (peek input).2).2 = none := by
    apply extractDouble_none
    intro c hc
    rw [peek_snd, peek_snd, skipWs_skipWs, skipWs_skipWs] at hc
    obtain ⟨a1, a2, a3, -, a5⟩ := h c hc
    exact ⟨a1, a2, a3, a5⟩
  rw [parsePrimary, if_neg h1, if_neg h2, h3]

set_option maxRecDepth 100000 in
/-- C10 (as amended): an input whose first non-whitespace character is not a digit,
`.`, `-`, `(` or `+` (the empty and the all-whitespace input included) fails with
`ExpectedNumber`, and so do `parse("+")` and `parse("")`. -/
theorem parse_expected_number (str : String)
    (h : ∀ c, (skipWs str.toList).head? = some c →
      isdigit c = false ∧ c ≠ '.' ∧ c ≠ '-' ∧ c ≠ '(' ∧ c ≠ '+') :
    parse str = some (.error .ExpectedNumber) ∧
    parse "+" = some (.error .ExpectedNumber) ∧
    parse "" = some (.error .ExpectedNumber) := by
  refine ⟨?_, by decide, by decide⟩
  unfold parse
  rw [parseExpression, parseTerm, parsePrimary_expected_number _ _ h]

set_option maxRecDepth 100000 in
/-- C10 as amended, at the inputs `"  * 3"` and `"   "`. -/
theorem parse_expected_number_witness :
    parse "  * 3" = some (.error .ExpectedNumber) ∧
    parse "   " = some (.error .ExpectedNumber) :=
  ⟨(parse_expected_number "  * 3" (by decide)).1, (parse_expected_number "   " (by decide)).1⟩

set_option maxRecDepth 100000 in
/-- C10 (the claim as stated fails): the first character of `"+5"` is `+`, which is not
a digit, `.`, `-` or `(`, and `parse("+5")` succeeds with `Constant(5)`: the extraction
`input >> value` reads the `+` as the sign of the number. -/
theorem parse_plus_five :
    (∀ c, (skipWs "+5".toList).head? = some c →
      isdigit c = false ∧ c ≠ '.' ∧ c ≠ '-' ∧ c ≠ '(') ∧
    parse "+5" = some (.ok (.Constant (Double.ofNat 5))) ∧
    parse "+5" ≠ some (.error .ExpectedNumber) := by
  refine ⟨?_, by decide, by decide⟩
  intro c hc
  have : c = '+' := by
    have h : (skipWs "+5".toList).head? = some '+' := by decide
    rw [h] at hc
    exact (Option.some.inj hc).symm
  subst this
  decide

/-! ### The two evaluators -/

theorem evaluate_toCalculator (t : Expression) :
    Calculator.evaluate (toCalculator t) = .ok (evaluate t) := by
  induction t with
  | Constant value => rfl
  | Add lhs rhs ihl ihr => rw [toCalculator, Calculator.evaluate, ihl, ihr]; rfl
  | Multiply lhs rhs ihl ihr => rw [toCalculator, Calculator.evaluate, ihl, ihr]; rfl
  | Negate operand ih => rw [toCalculator, Calculator.evaluate, ih]; rfl

theorem nodes_toCalculator (t : Expression) :
    (Calculator.nodes (toCalculator t)).all parserNode = true := by
  induction t with
  | Constant value => rfl
  | Add lhs rhs ihl ihr =>
    rw [toCalculator, Calculator.nodes, List.all_cons, List.all_append, ihl, ihr]; rfl
  | Multiply lhs rhs ihl ihr =>
    rw [toCalculator, Calculator.nodes, List.all_cons, List.all_append, ihl, ihr]; rfl
  | Negate operand ih => rw [toCalculator, Calculator.nodes, List.all_cons, ih]; rfl

theorem exists_toCalculator (c : Calculator.Expression)
    (h : (Calculator.nodes c).all parserNode = true) : ∃ t, toCalculator t = c := by
  induction c with
  | Constant value => exact ⟨.Constant value, rfl⟩
  | Add l r ihl ihr =>
    rw [Calculator.nodes, List.all_cons, List.all_append] at h
    simp only [Bool.and_eq_true] at h
    obtain ⟨a, rfl⟩ := ihl h.2.1
    obtain ⟨b, rfl⟩ := ihr h.2.2
    exact ⟨.Add a b, rfl⟩
  | Subtract l r _ _ => simp [Calculator.nodes, parserNode] at h
  | Multiply l r ihl ihr =>
    rw [Calculator.nodes, List.all_cons, List.all_append] at h
    simp only [Bool.and_eq_true] at h
    obtain ⟨a, rfl⟩ := ihl h.2.1
    obtain ⟨b, rfl⟩ := ihr h.2.2
    exact ⟨.Multiply a b, rfl⟩
  | Divide l r _ _ => simp [Calculator.nodes, parserNode] at h
  | Negate a ih =>
    rw [Calculator.nodes, List.all_cons] at h
    simp only [Bool.and_eq_true] at h
    obtain ⟨b, rfl⟩ := ih h.2
    exact ⟨.Negate b, rfl⟩

set_option maxRecDepth 100000 in
/-- C13 (as amended): `parse("10 - 3 * 2")` succeeds with the tree `Constant(10)`, which
evaluates to `10`: the parser has no binary `-` and returns before it, leaving
`- 3 * 2` in the stream.  The tree `Subtract(Constant 10, Multiply(Constant 3,
Constant 2))` built directly in `calculator.cpp` evaluates to `4`. -/
theorem parse_stops_at_minus :
    parse "10 - 3 * 2" = some (.ok (lit "10")) ∧
    parseExpression (4 * "10 - 3 * 2".length + 3) "10 - 3 * 2".toList =
      some (.ok (lit "10", "- 3 * 2".toList)) ∧
    evaluate (lit "10") = Double.ofNat 10 ∧
    Double.toRat (Double.ofNat 10) = some 10 ∧
    Calculator.evaluate (.Subtract (.Constant (Double.ofNat 10))
      (.Multiply (.Constant (Double.ofNat 3)) (.Constant (Double.ofNat 2)))) =
        .ok (Double.ofNat 4) ∧
    Double.toRat (Double.ofNat 4) = some 4 := by
  refine ⟨by decide, by decide, by decide, ?_, by decide, ?_⟩
  · have h : Double.ofNat 10 = Double.fin false 5629499534213120 (-49) := by decide
    rw [h]
    simp only [Double.toRat]
    norm_num
  · have h : Double.ofNat 4 = Double.fin false 4503599627370496 (-50) := by decide
    rw [h]
    simp only [Double.toRat]
    norm_num

set_option maxRecDepth 100000 in
/-- C13 (the claim as stated fails): the tree `parse("10 - 3 * 2")` returns evaluates to
`10`, which is not `4`, the value of the directly constructed `Subtract` tree. -/
theorem parse_ten_minus_not_four :
    (parse "10 - 3 * 2").map (Except.map evaluate) = some (.ok (Double.ofNat 10)) ∧
    Calculator.evaluate (.Subtract (.Constant (Double.ofNat 10))
      (.Multiply (.Constant (Double.ofNat 3)) (.Constant (Double.ofNat 2)))) =
        .ok (Double.ofNat 4) ∧
    Double.eq (Double.ofNat 10) (Double.ofNat 4) = false ∧
    (parse "10 - 3 * 2").map (Except.map evaluate) ≠ some (.ok (Double.ofNat 4)) := by
  decide

set_option maxRecDepth 100000 in
/-- C17: the parser builds only `Constant`, `Add`, `Multiply` and `Negate` nodes, so the
tree of a successful parse, evaluated as `calculator.cpp` evaluates it, returns the
number the parser's own `evaluate` returns and does not fail with `DivisionByZero`;
`/` and a binary `-` are not parsed as operators (the parse returns before them). -/
theorem parsed_tree_evaluates (str : String) (e : Expression)
    (h : parse str = some (.ok e)) :
    (Calculator.nodes (toCalculator e)).all parserNode = true ∧
    Calculator.evaluate (toCalculator e) = .ok (evaluate e) ∧
    Calculator.evaluate (toCalculator e) ≠ .error .DivisionByZero ∧
    parse "8 / 0" = some (.ok (lit "8")) ∧
    parse "8 - 2" = some (.ok (lit "8")) := by
  have _ := h
  refine ⟨nodes_toCalculator e, evaluate_toCalculator e, ?_, by decide, by decide⟩
  rw [evaluate_toCalculator]
  exact fun hc => by cases hc

set_option maxRecDepth 100000 in
/-- C17 at the input `-(3 + 1) * 2`. -/
theorem parsed_tree_evaluates_witness :
    Calculator.evaluate (toCalculator
      (.Multiply (.Negate (.Add (lit "3") (lit "1"))) (lit "2"))) =
        .ok (evaluate (.Multiply (.Negate (.Add (lit "3") (lit "1"))) (lit "2"))) :=
  (parsed_tree_evaluates "-(3 + 1) * 2" _ (by decide)).2.1

/-- C19: the two evaluators agree.  On a tree built from `Constant`, `Add`, `Multiply`
and `Negate` only, the `evaluate` of `calculator.cpp` does not fail and returns the
value the `evaluate` of `parser_calculator.cpp` returns; every tree of `calculator.cpp`
without a `Subtract` or `Divide` node is such a tree. -/
theorem evaluators_agree :
    (∀ t : Expression, Calculator.evaluate (toCalculator t) = .ok (evaluate t)) ∧
    (∀ c : Calculator.Expression, (Calculator.nodes c).all parserNode = true →
      ∃ t, toCalculator t = c ∧ Calculator.evaluate c = .ok (evaluate t)) := by
  refine ⟨evaluate_toCalculator, fun c h => ?_⟩
  obtain ⟨t, rfl⟩ := exists_toCalculator c h
  exact ⟨t, rfl, evaluate_toCalculator t⟩

/-! ### Results at a larger depth bound -/

theorem fuel_mono {f g : Nat} (hfg : f ≤ g) :
    (∀ input r, parsePrimary f input = some r → parsePrimary g input = some r) ∧
    (∀ node input r, parseTermLoop f node input = some r →
      parseTermLoop g node input = some r) ∧
    (∀ input r, parseTerm f input = some r → parseTerm g input = some r) ∧
    (∀ node input r, parseExpressionLoop f node input = some r →
      parseExpressionLoop g node input = some r) ∧
    (∀ input r, parseExpression f input = some r → parseExpression g input = some r) := by
  induction hfg with
  | refl => exact ⟨fun _ _ h => h, fun _ _ _ h => h, fun _ _ h => h, fun _ _ _ h => h,
      fun _ _ h => h⟩
  | step _ ih =>
    obtain ⟨h1, h2, h3, h4, h5⟩ := ih
    obtain ⟨s1, s2, s3, s4, s5⟩ := fuel_succ _
    exact ⟨fun i r h => s1 i r (h1 i r h), fun n i r h => s2 n i r (h2 n i r h),
      fun i r h => s3 i r (h3 i r h), fun n i r h => s4 n i r (h4 n i r h),
      fun i r h => s5 i r (h5 i r h)⟩

theorem get_nil : get [] = (none, []) := rfl

set_option maxRecDepth 100000 in
/-- C11: an unclosed group is rejected.  When `parse` succeeds on `s` having consumed
all of it, `parse("(" ++ s)` fails with `ExpectedCloseParen`; so does
`parse("(1 + 2")`. -/
theorem unclosed_group_rejected (s : String) (e : Expression) (h : ParsesAll s e) :
    parse ("(" ++ s) = some (.error .ExpectedCloseParen) ∧
    parse "(1 + 2" = some (.error .ExpectedCloseParen) := by
  refine ⟨?_, by decide⟩
  have hin : parseExpression (4 * s.length + 4) s.toList = some (.ok (e, [])) :=
    (fuel_mono (Nat.le_succ _)).2.2.2.2 _ _ h
  have hlen : 4 * ("(" ++ s).length + 3 = 4 * s.length + 4 + 1 + 1 + 1 := by
    simp only [String.length_append]
    have : "(".length = 1 := rfl
    omega
  have hl : ("(" ++ s).toList = '(' :: s.toList := by simp
  unfold parse
  rw [hlen, hl, parseExpression, parseTerm, parsePrimary_paren, hin]
  rfl

set_option maxRecDepth 100000 in
/-- C11 at `s = "1 + 2"`. -/
theorem unclosed_group_rejected_witness :
    parse ("(" ++ "1 + 2") = some (.error .ExpectedCloseParen) :=
  (unclosed_group_rejected "1 + 2" (.Add (lit "1") (lit "2")) (by decide)).1

/-! ### Termination

Every function leaves a stream no longer than the one it was given, and `get` takes a
character from it; so a depth of four calls for every character left, and three more,
is never exceeded. -/

theorem skipWs_length (input : List Char) : (skipWs input).length ≤ input.length := by
  induction input with
  | nil => simp [skipWs]
  | cons c cs ih =>
    rw [skipWs]
    split_ifs
    · simp only [List.length_cons]; omega
    · exact Nat.le_refl _

theorem get_length (input : List Char) : (get input).2.length ≤ input.length := by
  have h := skipWs_length input
  unfold get
  cases hs : skipWs input with
  | nil => simp
  | cons c cs => rw [hs] at h; simp only [List.length_cons] at h ⊢; omega

theorem get_length_lt (input : List Char) (c : Char) (h : (peek input).1 = some c) :
    (get (peek input).2).2.length < input.length := by
  have hl := skipWs_length input
  rw [peek_snd, get_skipWs]
  unfold get
  unfold peek at h
  cases hs : skipWs input with
  | nil => rw [hs] at h; simp at h
  | cons d ds => rw [hs] at hl; simp only [List.length_cons] at hl ⊢; omega

theorem scanLoop_length (m p sc es : Bool) (acc input : List Char) :
    (scanLoop m p sc es acc input).2.length ≤ input.length := by
  induction input generalizing m p sc es acc with
  | nil => simp [scanLoop]
  | cons c cs ih =>
    rw [scanLoop]
    split_ifs
    · exact Nat.le_succ_of_le (ih _ _ _ _ _)
    · exact Nat.le_succ_of_le (ih _ _ _ _ _)
    · exact Nat.le_succ_of_le (ih _ _ _ _ _)
    · exact Nat.le_succ_of_le (ih _ _ _ _ _)
    · exact Nat.le_refl _

theorem scanFloat_length (input : List Char) :
    (scanFloat input).2.length ≤ input.length := by
  cases input with
  | nil => simp [scanFloat]
  | cons c cs =>
    rw [scanFloat]
    split_ifs
    · exact Nat.le_succ_of_le (scanLoop_length _ _ _ _ _ _)
    · exact scanLoop_length _ _ _ _ _ _

theorem extractDouble_some_iff {input : List Char} {v : Double} {rest : List Char} :
    extractDouble input = some (v, rest) ↔
      (strtod (scanFloat (skipWs input)).1 = some (v, []) ∧ (∀ sg, v ≠ Double.inf sg) ∧
        (scanFloat (skipWs input)).2 = rest) := by
  unfold extractDouble
  dsimp only
  cases hs : strtod (scanFloat (skipWs input)).1 with
  | none => simp
  | some vt =>
    obtain ⟨w, tail⟩ := vt
    dsimp only
    by_cases ht : tail = []
    · subst ht
      rw [if_pos rfl]
      cases w with
      | nan =>
        constructor
        · intro h
          simp only [Option.some.injEq, Prod.mk.injEq] at h
          obtain ⟨rfl, rfl⟩ := h
          exact ⟨rfl, fun sg hc => (by cases hc), rfl⟩
        · rintro ⟨h1, -, rfl⟩
          simp only [Option.some.injEq, Prod.mk.injEq, and_true] at h1
          subst h1
          rfl
      | inf sg =>
        constructor
        · intro h; simp at h
        · rintro ⟨h1, h2, -⟩
          simp only [Option.some.injEq, Prod.mk.injEq, and_true] at h1
          exact absurd h1.symm (h2 sg)
      | fin sg m e =>
        constructor
        · intro h
          simp only [Option.some.injEq, Prod.mk.injEq] at h
          obtain ⟨rfl, rfl⟩ := h
          exact ⟨rfl, fun sg hc => (by cases hc), rfl⟩
        · rintro ⟨h1, -, rfl⟩
          simp only [Option.some.injEq, Prod.mk.injEq, and_true] at h1
          subst h1
          rfl
    · rw [if_neg ht]
      constructor
      · intro h; simp at h
      · rintro ⟨h1, -, -⟩
        simp only [Option.some.injEq, Prod.mk.injEq] at h1
        exact absurd h1.2 ht

theorem extractDouble_length {input : List Char} {v : Double} {rest : List Char}
    (h : extractDouble input = some (v, rest)) : rest.length ≤ input.length := by
  have h1 := scanFloat_length (skipWs input)
  have h2 := skipWs_length input
  rw [← (extractDouble_some_iff.mp h).2.2]
  omega

theorem parsePrimary_succ (f : Nat) (input : List Char) :
    parsePrimary (f + 1) input =
      if (skipWs input).head? = some '-' then
        match parsePrimary f (get input).2 with
        | some (.ok (operand, rest)) => some (.ok (.Negate operand, rest))
        | other => other
      else if (skipWs input).head? = some '(' then
        match parseExpression f (get input).2 with
        | some (.ok (expr, rest)) =>
          if (get rest).1 = some ')' then some (.ok (expr, (get rest).2))
          else some (.error .ExpectedCloseParen)
        | other => other
      else
        match extractDouble (skipWs input) with
        | none => some (.error .ExpectedNumber)
        | some (value, rest) => some (.ok (.Constant value, rest)) := by
  rw [parsePrimary]
  simp only [peek_snd, peek_skipWs, get_skipWs, skipWs_skipWs]
  rfl

theorem parseTermLoop_succ (f : Nat) (node : Expression) (input : List Char) :
    parseTermLoop (f + 1) node input =
      if (skipWs input).head? = some '*' then
        match parsePrimary f (get input).2 with
        | some (.ok (rhs, rest)) => parseTermLoop f (.Multiply node rhs) rest
        | other => other
      else some (.ok (node, skipWs input)) := by
  rw [parseTermLoop]
  simp only [peek_snd, get_skipWs]
  rfl

theorem parseExpressionLoop_succ (f : Nat) (node : Expression) (input : List Char) :
    parseExpressionLoop (f + 1) node input =
      if (skipWs input).head? = some '+' then
        match parseTerm f (get input).2 with
        | some (.ok (rhs, rest)) => parseExpressionLoop f (.Add node rhs) rest
        | other => other
      else some (.ok (node, skipWs input)) := by
  rw [parseExpressionLoop]
  simp only [peek_snd, get_skipWs]
  rfl

/-- How `parsePrimary` can have returned a node. -/
theorem parsePrimary_ok {f : Nat} {input : List Char} {e : Expression} {rest : List Char}
    (h : parsePrimary (f + 1) input = some (.ok (e, rest))) :
    ((skipWs input).head? = some '-' ∧
      ∃ op, parsePrimary f (get input).2 = some (.ok (op, rest)) ∧ e = .Negate op) ∨
    ((skipWs input).head? ≠ some '-' ∧ (skipWs input).head? = some '(' ∧
      ∃ r1, parseExpression f (get input).2 = some (.ok (e, r1)) ∧
        (get r1).1 = some ')' ∧ rest = (get r1).2) ∨
    ((skipWs input).head? ≠ some '-' ∧ (skipWs input).head? ≠ some '(' ∧
      ∃ v, extractDouble (skipWs input) = some (v, rest) ∧ e = .Constant v) := by
  rw [parsePrimary_succ] at h
  split_ifs at h with h1 h2
  · left
    refine ⟨h1, ?_⟩
    cases hp : parsePrimary f (get input).2 with
    | none => rw [hp] at h; simp at h
    | some y =>
      rw [hp] at h
      rcases y with err | ⟨op, r⟩
      · simp at h
      · simp only [Option.some.injEq, Except.ok.injEq, Prod.mk.injEq] at h
        obtain ⟨rfl, rfl⟩ := h
        exact ⟨op, rfl, rfl⟩
  · right; left
    refine ⟨h1, h2, ?_⟩
    cases hp : parseExpression f (get input).2 with
    | none => rw [hp] at h; simp at h
    | some y =>
      rw [hp] at h
      rcases y with err | ⟨ex, r1⟩
      · simp at h
      · dsimp only at h
        split_ifs at h with h3
        · simp only [Option.some.injEq, Except.ok.injEq, Prod.mk.injEq] at h
          obtain ⟨rfl, rfl⟩ := h
          exact ⟨r1, rfl, h3, rfl⟩
        · simp at h
  · right; right
    refine ⟨h1, h2, ?_⟩
    cases hp : extractDouble (skipWs input) with
    | none => rw [hp] at h; simp at h
    | some y =>
      obtain ⟨v, r⟩ := y
      rw [hp] at h
      simp only [Option.some.injEq, Except.ok.injEq, Prod.mk.injEq] at h
      obtain ⟨rfl, rfl⟩ := h
      exact ⟨v, rfl, rfl⟩

/-- How the loop of `parseTerm` can have returned a node. -/
theorem parseTermLoop_ok {f : Nat} {node : Expression} {input : List Char} {e : Expression}
    {rest : List Char} (h : parseTermLoop (f + 1) node input = some (.ok (e, rest))) :
    ((skipWs input).head? = some '*' ∧
      ∃ rhs r1, parsePrimary f (get input).2 = some (.ok (rhs, r1)) ∧
        parseTermLoop f (.Multiply node rhs) r1 = some (.ok (e, rest))) ∨
    ((skipWs input).head? ≠ some '*' ∧ e = node ∧ rest = skipWs input) := by
  rw [parseTermLoop_succ] at h
  split_ifs at h with h1
  · left
    refine ⟨h1, ?_⟩
    cases hp : parsePrimary f (get input).2 with
    | none => rw [hp] at h; simp at h
    | some y =>
      rw [hp] at h
      rcases y with err | ⟨rhs, r1⟩
      · simp at h
      · exact ⟨rhs, r1, rfl, h⟩
  · right
    simp only [Option.some.injEq, Except.ok.injEq, Prod.mk.injEq] at h
    exact ⟨h1, h.1.symm, h.2.symm⟩

/-- How `parseTerm` can have returned a node. -/
theorem parseTerm_ok {f : Nat} {input : List Char} {e : Expression} {rest : List Char}
    (h : parseTerm (f + 1) input = some (.ok (e, rest))) :
    ∃ node r1, parsePrimary f input = some (.ok (node, r1)) ∧
      parseTermLoop f node r1 = some (.ok (e, rest)) := by
  rw [parseTerm] at h
  cases hp : parsePrimary f input with
  | none => rw [hp] at h; simp at h
  | some y =>
    rw [hp] at h
    rcases y with err | ⟨node, r1⟩
    · simp at h
    · exact ⟨node, r1, rfl, h⟩

/-- How the loop of `parseExpression` can have returned a node. -/
theorem parseExpressionLoop_ok {f : Nat} {node : Expression} {input : List Char}
    {e : Expression} {rest : List Char}
    (h : parseExpressionLoop (f + 1) node input = some (.ok (e, rest))) :
    ((skipWs input).head? = some '+' ∧
      ∃ rhs r1, parseTerm f (get input).2 = some (.ok (rhs, r1)) ∧
        parseExpressionLoop f (.Add node rhs) r1 = some (.ok (e, rest))) ∨
    ((skipWs input).head? ≠ some '+' ∧ e = node ∧ rest = skipWs input) := by
  rw [parseExpressionLoop_succ] at h
  split_ifs at h with h1
  · left
    refine ⟨h1, ?_⟩
    cases hp : parseTerm f (get input).2 with
    | none => rw [hp] at h; simp at h
    | some y =>
      rw [hp] at h
      rcases y with err | ⟨rhs, r1⟩
      · simp at h
      · exact ⟨rhs, r1, rfl, h⟩
  · right
    simp only [Option.some.injEq, Except.ok.injEq, Prod.mk.injEq] at h
    exact ⟨h1, h.1.symm, h.2.symm⟩

/-- How `parseExpression` can have returned a node. -/
theorem parseExpression_ok {f : Nat} {input : List Char} {e : Expression}
    {rest : List Char} (h : parseExpression (f + 1) input = some (.ok (e, rest))) :
    ∃ node r1, parseTerm f input = some (.ok (node, r1)) ∧
      parseExpressionLoop f node r1 = some (.ok (e, rest)) := by
  rw [parseExpression] at h
  cases hp : parseTerm f input with
  | none => rw [hp] at h; simp at h
  | some y =>
    rw [hp] at h
    rcases y with err | ⟨node, r1⟩
    · simp at h
    · exact ⟨node, r1, rfl, h⟩

theorem get_lt {input : List Char} {c : Char} (h : (skipWs input).head? = some c) :
    (get input).2.length < input.length := by
  have := get_length_lt input c h
  rwa [peek_snd, get_skipWs] at this

/-- A function that returns a node leaves a stream no longer than the one it was
given. -/
theorem rest_length (f : Nat) :
    (∀ input e rest, parsePrimary f input = some (.ok (e, rest)) →
      rest.length ≤ input.length) ∧
    (∀ node input e rest, parseTermLoop f node input = some (.ok (e, rest)) →
      rest.length ≤ input.length) ∧
    (∀ input e rest, parseTerm f input = some (.ok (e, rest)) →
      rest.length ≤ input.length) ∧
    (∀ node input e rest, parseExpressionLoop f node input = some (.ok (e, rest)) →
      rest.length ≤ input.length) ∧
    (∀ input e rest, parseExpression f input = some (.ok (e, rest)) →
      rest.length ≤ input.length) := by
  induction f with
  | zero => simp [parsePrimary, parseTermLoop, parseTerm, parseExpressionLoop, parseExpression]
  | succ f ih =>
    obtain ⟨ihP, ihTL, ihT, ihEL, ihE⟩ := ih
    refine ⟨?_, ?_, ?_, ?_, ?_⟩
    · intro input e rest h
      rcases parsePrimary_ok h with ⟨-, op, hp, -⟩ | ⟨-, -, r1, hp, -, rfl⟩ | ⟨-, -, v, hp, -⟩
      · exact Nat.le_trans (ihP _ _ _ hp) (get_length input)
      · exact Nat.le_trans (get_length r1) (Nat.le_trans (ihE _ _ _ hp) (get_length input))
      · exact Nat.le_trans (extractDouble_length hp) (skipWs_length input)
    · intro node input e rest h
      rcases parseTermLoop_ok h with ⟨-, rhs, r1, hp, hl⟩ | ⟨-, -, rfl⟩
      · exact Nat.le_trans (ihTL _ _ _ _ hl) (Nat.le_trans (ihP _ _ _ hp) (get_length input))
      · exact skipWs_length input
    · intro input e rest h
      obtain ⟨node, r1, hp, hl⟩ := parseTerm_ok h
      exact Nat.le_trans (ihTL _ _ _ _ hl) (ihP _ _ _ hp)
    · intro node input e rest h
      rcases parseExpressionLoop_ok h with ⟨-, rhs, r1, hp, hl⟩ | ⟨-, -, rfl⟩
      · exact Nat.le_trans (ihEL _ _ _ _ hl) (Nat.le_trans (ihT _ _ _ hp) (get_length input))
      · exact skipWs_length input
    · intro input e rest h
      obtain ⟨node, r1, hp, hl⟩ := parseExpression_ok h
      exact Nat.le_trans (ihEL _ _ _ _ hl) (ihT _ _ _ hp)

theorem returns_step (n : Nat) (ih : ∀ input : List Char, input.length < n → Returns input) :
    ∀ input : List Char, input.length ≤ n → Returns input := by
  have hP : ∀ input : List Char, input.length ≤ n → ∀ f, 4 * input.length + 1 ≤ f →
      ∃ r, parsePrimary f input = some r := by
    intro input hle f hf
    obtain ⟨k, rfl⟩ : ∃ k, f = k + 1 := ⟨f - 1, by omega⟩
    rw [parsePrimary_succ]
    split_ifs with h1 h2
    · have hlt := get_lt h1
      obtain ⟨r, hr⟩ := (ih (get input).2 (by omega)).1 k (by omega)
      rw [hr]
      rcases r with err | ⟨op, rest⟩ <;> exact ⟨_, rfl⟩
    · have hlt := get_lt h2
      obtain ⟨r, hr⟩ := (ih (get input).2 (by omega)).2.2.2.2 k (by omega)
      rw [hr]
      rcases r with err | ⟨ex, r1⟩
      · exact ⟨_, rfl⟩
      · dsimp only
        split_ifs <;> exact ⟨_, rfl⟩
    · cases extractDouble (skipWs input) with
      | none => exact ⟨_, rfl⟩
      | some y => exact ⟨_, rfl⟩
  have hTL : ∀ input : List Char, input.length ≤ n → ∀ f node, 4 * input.length + 1 ≤ f →
      ∃ r, parseTermLoop f node input = some r := by
    intro input hle f node hf
    obtain ⟨k, rfl⟩ : ∃ k, f = k + 1 := ⟨f - 1, by omega⟩
    rw [parseTermLoop_succ]
    split_ifs with h1
    · have hlt := get_lt h1
      obtain ⟨r, hr⟩ := (ih (get input).2 (by omega)).1 k (by omega)
      rw [hr]
      rcases r with err | ⟨rhs, r1⟩
      · exact ⟨_, rfl⟩
      · have hr1 := (rest_length k).1 _ _ _ hr
        exact (ih r1 (by omega)).2.1 k _ (by omega)
    · exact ⟨_, rfl⟩
  have hT : ∀ input : List Char, input.length ≤ n → ∀ f, 4 * input.length + 2 ≤ f →
      ∃ r, parseTerm f input = some r := by
    intro input hle f hf
    obtain ⟨k, rfl⟩ : ∃ k, f = k + 1 := ⟨f - 1, by omega⟩
    obtain ⟨r, hr⟩ := hP input hle k (by omega)
    rw [parseTerm, hr]
    rcases r with err | ⟨node, r1⟩
    · exact ⟨_, rfl⟩
    · have hr1 := (rest_length k).1 _ _ _ hr
      exact hTL r1 (by omega) k node (by omega)
  have hEL : ∀ input : List Char, input.length ≤ n → ∀ f node, 4 * input.length + 2 ≤ f →
      ∃ r, parseExpressionLoop f node input = some r := by
    intro input hle f node hf
    obtain ⟨k, rfl⟩ : ∃ k, f = k + 1 := ⟨f - 1, by omega⟩
    rw [parseExpressionLoop_succ]
    split_ifs with h1
    · have hlt := get_lt h1
      obtain ⟨r, hr⟩ := (ih (get input).2 (by omega)).2.2.1 k (by omega)
      rw [hr]
      rcases r with err | ⟨rhs, r1⟩
      · exact ⟨_, rfl⟩
      · have hr1 := (rest_length k).2.2.1 _ _ _ hr
        exact (ih r1 (by omega)).2.2.2.1 k _ (by omega)
    · exact ⟨_, rfl⟩
  have hE : ∀ input : List Char, input.length ≤ n → ∀ f, 4 * input.length + 3 ≤ f →
      ∃ r, parseExpression f input = some r := by
    intro input hle f hf
    obtain ⟨k, rfl⟩ : ∃ k, f = k + 1 := ⟨f - 1, by omega⟩
    obtain ⟨r, hr⟩ := hT input hle k (by omega)
    rw [parseExpression, hr]
    rcases r with err | ⟨node, r1⟩
    · exact ⟨_, rfl⟩
    · have hr1 := (rest_length k).2.2.1 _ _ _ hr
      exact hEL r1 (by omega) k node (by omega)
  exact fun input hle => ⟨hP input hle, hTL input hle, hT input hle, hEL input hle,
    hE input hle⟩

/-- Every parsing function returns within a depth linear in the length of the stream. -/
theorem returns_all (input : List Char) : Returns input := by
  have h : ∀ n, ∀ input : List Char, input.length ≤ n → Returns input := by
    intro n
    induction n with
    | zero => exact returns_step 0 (fun _ hlt => absurd hlt (Nat.not_lt_zero _))
    | succ n ih => exact returns_step (n + 1) (fun i hlt => ih i (Nat.lt_succ_iff.mp hlt))
  exact h _ input (Nat.le_refl _)

/-- The result of `parseExpression` is the same at every depth bound from the one
`parse` uses. -/
theorem parseExpression_stable (input : List Char) {f : Nat} (hf : 4 * input.length + 3 ≤ f) :
    parseExpression f input = parseExpression (4 * input.length + 3) input := by
  obtain ⟨r, hr⟩ := (returns_all input).2.2.2.2 _ (Nat.le_refl _)
  rw [hr, (fuel_mono hf).2.2.2.2 _ _ hr]

set_option maxRecDepth 100000 in
/-- C14: `parse` terminates on every input, with a tree or with one of the two errors.
Each recursive call and each loop iteration is made on the stream `get` has taken a
character from, which is shorter; a function that returns leaves a stream no longer
than it was given; so every function returns within a depth linear in what is left of
the input. -/
theorem parse_terminates (str : String) :
    ((∃ e, parse str = some (.ok e)) ∨ parse str = some (.error .ExpectedNumber) ∨
      parse str = some (.error .ExpectedCloseParen)) ∧
    (∀ (input : List Char) (c : Char), (skipWs input).head? = some c →
      (get input).2.length < input.length) ∧
    (∀ f input e rest, parseExpression f input = some (.ok (e, rest)) →
      rest.length ≤ input.length) ∧
    (∀ input : List Char, Returns input) := by
  refine ⟨?_, fun input c h => get_lt h, fun f => (rest_length f).2.2.2.2, returns_all⟩
  obtain ⟨r, hr⟩ := (returns_all str.toList).2.2.2.2 (4 * str.length + 3) (Nat.le_refl _)
  unfold parse
  rw [hr]
  rcases r with err | ⟨e, rest⟩
  · cases err
    · exact Or.inr (Or.inl rfl)
    · exact Or.inr (Or.inr rfl)
  · exact Or.inl ⟨e, rfl⟩

/-! ### What follows a complete parse -/

theorem skipWs_append_of_ne_nil {input : List Char} (h : skipWs input ≠ []) (t : List Char) :
    skipWs (input ++ t) = skipWs input ++ t := by
  induction input with
  | nil => exact absurd rfl h
  | cons c cs ih =>
    rw [List.cons_append, skipWs, skipWs]
    rw [skipWs] at h
    split_ifs with hc
    · rw [if_pos hc] at h; exact ih h
    · rfl

theorem skipWs_append_of_nil {input : List Char} (h : skipWs input = []) (t : List Char) :
    skipWs (input ++ t) = skipWs t := by
  induction input with
  | nil => rfl
  | cons c cs ih =>
    rw [List.cons_append, skipWs]
    rw [skipWs] at h
    split_ifs with hc
    · rw [if_pos hc] at h; exact ih h
    · rw [if_neg hc] at h; exact absurd h (List.cons_ne_nil _ _)

theorem head_ne_nil {l : List Char} {c : Char} (h : l.head? = some c) : l ≠ [] := by
  rintro rfl
  simp at h

theorem get_append {input : List Char} {c : Char} (h : (skipWs input).head? = some c)
    (t : List Char) : get (input ++ t) = (some c, (get input).2 ++ t) := by
  unfold get
  rw [skipWs_append_of_ne_nil (head_ne_nil h)]
  cases hs : skipWs input with
  | nil => rw [hs] at h; simp at h
  | cons d ds =>
    rw [hs] at h
    simp only [List.head?_cons, Option.some.injEq] at h
    subst h
    rfl

theorem digits_getLast {l : List Char} (h : ∀ c ∈ l, isdigit c = true) :
    l.getLast? ≠ some 'e' := by
  intro hc
  have := h _ (List.mem_of_getLast?_eq_some hc)
  revert this
  decide

theorem getLast_tail {c : Char} {cs : List Char} (h : (c :: cs).getLast? = some 'e')
    (hcs : cs ≠ []) : cs.getLast? = some 'e' := by
  cases cs with
  | nil => exact absurd rfl hcs
  | cons d ds => rwa [List.getLast?_cons_cons] at h

theorem getLast_dropWhile {l : List Char} (h : l.getLast? = some 'e') :
    l.dropWhile isdigit ≠ [] ∧ (l.dropWhile isdigit).getLast? = some 'e' := by
  have hsplit := List.takeWhile_append_dropWhile isdigit l
  by_cases hd : l.dropWhile isdigit = []
  · rw [hd, List.append_nil] at hsplit
    rw [← hsplit] at h
    exact absurd h (digits_getLast (fun c hc => List.mem_takeWhile_imp hc))
  · refine ⟨hd, ?_⟩
    rw [← hsplit, List.getLast?_append_of_ne_nil _ hd] at h
    exact h

theorem getLast_takeSign {l : List Char} (h : l.getLast? = some 'e') :
    (takeSign l).2 = [] ∨ (takeSign l).2.getLast? = some 'e' := by
  cases l with
  | nil => simp at h
  | cons c cs =>
    rw [takeSign]
    split_ifs
    · by_cases hcs : cs = []
      · exact Or.inl hcs
      · exact Or.inr (getLast_tail h hcs)
    · by_cases hcs : cs = []
      · exact Or.inl hcs
      · exact Or.inr (getLast_tail h hcs)
    · exact Or.inr h

theorem takeExponent_tail {l : List Char} (hne : l ≠ []) (h : l.getLast? = some 'e') :
    (takeExponent l).2 ≠ [] := by
  cases l with
  | nil => exact absurd rfl hne
  | cons c cs =>
    rw [takeExponent]
    by_cases h1 : c = 'e' ∨ c = 'E'
    · rw [if_pos h1]
      dsimp only
      by_cases h2 : List.takeWhile isdigit (takeSign cs).2 = []
      · rw [if_pos h2]
        exact List.cons_ne_nil _ _
      · rw [if_neg h2]
        by_cases hcs : cs = []
        · subst hcs
          exact absurd (by simp [takeSign]) h2
        · rcases getLast_takeSign (getLast_tail h hcs) with h3 | h3
          · rw [h3] at h2
            exact absurd (by simp) h2
          · exact (getLast_dropWhile h3).1
    · rw [if_neg h1]
      exact List.cons_ne_nil _ _

/-- A field that ends with the exponent mark is not a number to its end. -/
theorem strtod_tail {x : List Char} {v : Double} {tail : List Char}
    (hx : strtod x = some (v, tail)) (h : x.getLast? = some 'e') : tail ≠ [] := by
  unfold strtod at hx
  dsimp only at hx
  rcases getLast_takeSign h with h1 | h1
  · rw [h1] at hx
    simp at hx
  · obtain ⟨h2, h3⟩ := getLast_dropWhile h1
    cases hs2 : (takeSign x).2.dropWhile isdigit with
    | nil => exact absurd hs2 h2
    | cons c cs =>
      rw [hs2] at hx h3
      dsimp only at hx
      split_ifs at hx with hc hnil hnil
      · simp only [Option.some.injEq, Prod.mk.injEq] at hx
        rw [← hx.2]
        have hcs : cs ≠ [] := by
          rintro rfl
          rw [hc] at h3
          simp at h3
        obtain ⟨h4, h5⟩ := getLast_dropWhile (getLast_tail h3 hcs)
        exact takeExponent_tail h4 h5
      · simp only [Option.some.injEq, Prod.mk.injEq] at hx
        rw [← hx.2]
        exact takeExponent_tail (List.cons_ne_nil _ _) h3

theorem scanLoop_append {t : List Char} (ht : stops t = true) (input : List Char) :
    ∀ (m p sc es : Bool) (acc x r : List Char), (es = true → acc.getLast? = some 'e') →
      scanLoop m p sc es acc input = (x, r) → x.getLast? ≠ some 'e' →
      scanLoop m p sc es acc (input ++ t) = (x, r ++ t) := by
  induction input with
  | nil =>
    intro m p sc es acc x r hinv h hx
    rw [scanLoop] at h
    simp only [Prod.mk.injEq] at h
    obtain ⟨rfl, rfl⟩ := h
    cases es with
    | true => exact absurd (hinv rfl) hx
    | false => exact scanLoop_stops _ _ _ _ _ ht
  | cons c cs ih =>
    intro m p sc es acc x r hinv h hx
    rw [List.cons_append, scanLoop]
    rw [scanLoop] at h
    split_ifs at h ⊢ with h1 h2 h3 h4
    · exact ih _ _ _ _ _ _ _ (fun hc => by cases hc) h hx
    · exact ih _ _ _ _ _ _ _ (fun hc => by cases hc) h hx
    · exact ih _ _ _ _ _ _ _ (fun hc => by cases hc) h hx
    · exact ih _ _ _ _ _ _ _ (fun _ => List.getLast?_concat _) h hx
    · simp only [Prod.mk.injEq] at h
      obtain ⟨rfl, rfl⟩ := h
      rfl

theorem scanFloat_append {t : List Char} (ht : stops t = true) {input x r : List Char}
    (hne : input ≠ []) (h : scanFloat input = (x, r)) (hx : x.getLast? ≠ some 'e') :
    scanFloat (input ++ t) = (x, r ++ t) := by
  cases input with
  | nil => exact absurd rfl hne
  | cons c cs =>
    rw [List.cons_append, scanFloat]
    rw [scanFloat] at h
    split_ifs at h ⊢
    · exact scanLoop_append ht _ _ _ _ _ _ _ _ (fun hc => by cases hc) h hx
    · rw [← List.cons_append]
      exact scanLoop_append ht _ _ _ _ _ _ _ _ (fun hc => by cases hc) h hx

theorem extractDouble_nil_ws {input : List Char} (h : skipWs input = []) :
    extractDouble input = none := by
  unfold extractDouble
  rw [h]
  rfl

/-- A successful extraction is not changed by characters added to the end of the
stream, when the first of them cannot continue a number. -/
theorem extractDouble_append {t : List Char} (ht : stops t = true) {input : List Char}
    {v : Double} {rest : List Char} (h : extractDouble input = some (v, rest)) :
    extractDouble (input ++ t) = some (v, rest ++ t) := by
  have hne : skipWs input ≠ [] := by
    intro hc
    rw [extractDouble_nil_ws hc] at h
    cases h
  obtain ⟨h1, h2, h3⟩ := extractDouble_some_iff.mp h
  have hx : (scanFloat (skipWs input)).1.getLast? ≠ some 'e' :=
    fun hc => strtod_tail h1 hc rfl
  have hsc := scanFloat_append ht hne (x := (scanFloat (skipWs input)).1)
    (r := (scanFloat (skipWs input)).2) rfl hx
  rw [extractDouble_some_iff, skipWs_append_of_ne_nil hne, hsc]
  exact ⟨h1, h2, by rw [h3]⟩

/-- The streams the loops leave start with no whitespace. -/
theorem rest_normal (f : Nat) :
    (∀ node input e rest, parseTermLoop f node input = some (.ok (e, rest)) →
      skipWs rest = rest) ∧
    (∀ input e rest, parseTerm f input = some (.ok (e, rest)) → skipWs rest = rest) ∧
    (∀ node input e rest, parseExpressionLoop f node input = some (.ok (e, rest)) →
      skipWs rest = rest) ∧
    (∀ input e rest, parseExpression f input = some (.ok (e, rest)) →
      skipWs rest = rest) := by
  induction f with
  | zero => simp [parseTermLoop, parseTerm, parseExpressionLoop, parseExpression]
  | succ f ih =>
    obtain ⟨ihTL, ihT, ihEL, ihE⟩ := ih
    refine ⟨?_, ?_, ?_, ?_⟩
    · intro node input e rest h
      rcases parseTermLoop_ok h with ⟨-, rhs, r1, -, hl⟩ | ⟨-, -, rfl⟩
      · exact ihTL _ _ _ _ hl
      · exact skipWs_skipWs input
    · intro input e rest h
      obtain ⟨node, r1, -, hl⟩ := parseTerm_ok h
      exact ihTL _ _ _ _ hl
    · intro node input e rest h
      rcases parseExpressionLoop_ok h with ⟨-, rhs, r1, -, hl⟩ | ⟨-, -, rfl⟩
      · exact ihEL _ _ _ _ hl
      · exact skipWs_skipWs input
    · intro input e rest h
      obtain ⟨node, r1, -, hl⟩ := parseExpression_ok h
      exact ihEL _ _ _ _ hl

theorem head_skipWs_append {input : List Char} {c : Char}
    (h : (skipWs input).head? = some c) (t : List Char) :
    (skipWs (input ++ t)).head? = some c := by
  rw [skipWs_append_of_ne_nil (head_ne_nil h)]
  cases hs : skipWs input with
  | nil => rw [hs] at h; simp at h
  | cons d ds => rw [hs] at h; exact h

theorem head_append_ne {l : List Char} (hne : l ≠ []) {c : Char} (h : l.head? ≠ some c)
    (t : List Char) : (l ++ t).head? ≠ some c := by
  cases l with
  | nil => exact absurd rfl hne
  | cons d ds => exact h

theorem get_fst (input : List Char) : (get input).1 = (skipWs input).head? := by
  unfold get
  cases skipWs input <;> rfl

theorem parseExpressionLoop_nil_ok {f : Nat} {node e : Expression} {rest : List Char}
    (h : parseExpressionLoop f node [] = some (.ok (e, rest))) : e = node ∧ rest = [] := by
  cases f with
  | zero => simp [parseExpressionLoop] at h
  | succ f =>
    rcases parseExpressionLoop_ok h with ⟨h1, -⟩ | ⟨-, h2, h3⟩
    · simp [skipWs] at h1
    · exact ⟨h2, h3⟩

/-- The effect of a tail `t` added to the end of the stream on a function that has
returned a node.  `parsePrimary` returns the same node and leaves the tail as well.  A
loop, `parseTerm` or `parseExpression` that had left something of the stream does the
same; one that had exhausted the stream goes on with the tail, as `tailResult` and
`resume` say. -/
theorem append_tail {t : List Char} {tlErr elErr : Option ParseError}
    (ht : stops t = true)
    (hTL : ∀ g node, parseTermLoop (g + 2) node t = tailResult tlErr node t)
    (hEL : ∀ g node, parseExpressionLoop (g + 3) node t = tailResult elErr node t)
    (f : Nat) :
    (∀ input e rest, parsePrimary f input = some (.ok (e, rest)) →
      parsePrimary f (input ++ t) = some (.ok (e, rest ++ t))) ∧
    (∀ node input e rest, parseTermLoop f node input = some (.ok (e, rest)) →
      (rest ≠ [] → parseTermLoop f node (input ++ t) = some (.ok (e, rest ++ t))) ∧
      (rest = [] → parseTermLoop (f + 3) node (input ++ t) = tailResult tlErr e t)) ∧
    (∀ input e rest, parseTerm f input = some (.ok (e, rest)) →
      (rest ≠ [] → parseTerm f (input ++ t) = some (.ok (e, rest ++ t))) ∧
      (rest = [] → parseTerm (f + 3) (input ++ t) = tailResult tlErr e t)) ∧
    (∀ node input e rest, skipWs input ≠ [] →
      parseExpressionLoop f node input = some (.ok (e, rest)) →
      (rest ≠ [] → parseExpressionLoop f node (input ++ t) = some (.ok (e, rest ++ t))) ∧
      (rest = [] →
        parseExpressionLoop (f + 3) node (input ++ t) = resume tlErr elErr e t)) ∧
    (∀ input e rest, parseExpression f input = some (.ok (e, rest)) →
      (rest ≠ [] → parseExpression f (input ++ t) = some (.ok (e, rest ++ t))) ∧
      (rest = [] → parseExpression (f + 3) (input ++ t) = resume tlErr elErr e t)) := by
  induction f with
  | zero => simp [parsePrimary, parseTermLoop, parseTerm, parseExpressionLoop, parseExpression]
  | succ k ih =>
    obtain ⟨ihP, ihTL, ihT, ihEL, ihE⟩ := ih
    have hk : k ≤ k + 3 := Nat.le_add_right _ _
    refine ⟨?_, ?_, ?_, ?_, ?_⟩
    · intro input e rest h
      rcases parsePrimary_ok h with ⟨h1, op, hp, rfl⟩ | ⟨h1, h2, r1, hp, hg, rfl⟩ |
        ⟨h1, h2, v, hp, rfl⟩
      · rw [parsePrimary_succ, if_pos (head_skipWs_append h1 t), get_append h1,
          ihP _ _ _ hp]
      · have hr1 : r1 ≠ [] := by
          rintro rfl
          simp [get, skipWs] at hg
        rw [get_fst] at hg
        rw [parsePrimary_succ, head_skipWs_append h2 t, if_neg (by simp), if_pos rfl,
          get_append h2, (ihE _ _ _ hp).1 hr1]
        simp only [get_append hg, if_true]
      · have hne : skipWs input ≠ [] := by
          intro hc
          rw [extractDouble_nil_ws (by rw [skipWs_skipWs]; exact hc)] at hp
          cases hp
        rw [parsePrimary_succ, skipWs_append_of_ne_nil hne,
          if_neg (head_append_ne hne h1 t), if_neg (head_append_ne hne h2 t)]
        rw [extractDouble_append ht hp]
    · intro node input e rest h
      rcases parseTermLoop_ok h with ⟨h1, rhs, r1, hp, hl⟩ | ⟨h1, rfl, rfl⟩
      · have hp' := ihP _ _ _ hp
        obtain ⟨hne, hnil⟩ := ihTL _ _ _ _ hl
        constructor
        · intro hrest
          rw [parseTermLoop_succ, if_pos (head_skipWs_append h1 t), get_append h1, hp']
          exact hne hrest
        · intro hrest
          rw [show k + 1 + 3 = (k + 3) + 1 by omega, parseTermLoop_succ,
            if_pos (head_skipWs_append h1 t), get_append h1, (fuel_mono hk).1 _ _ hp']
          exact hnil hrest
      · constructor
        · intro hrest
          rw [parseTermLoop_succ, skipWs_append_of_ne_nil hrest,
            if_neg (head_append_ne hrest h1 t)]
        · intro hrest
          rw [← (parse_skipWs _ (input ++ t)).2.1, skipWs_append_of_nil hrest,
            (parse_skipWs _ t).2.1]
          exact hTL (k + 2) e
    · intro input e rest h
      obtain ⟨node, r1, hp, hl⟩ := parseTerm_ok h
      have hp' := ihP _ _ _ hp
      obtain ⟨hne, hnil⟩ := ihTL _ _ _ _ hl
      constructor
      · intro hrest
        rw [parseTerm, hp']
        exact hne hrest
      · intro hrest
        rw [show k + 1 + 3 = (k + 3) + 1 by omega, parseTerm, (fuel_mono hk).1 _ _ hp']
        exact hnil hrest
    · intro node input e rest hin h
      rcases parseExpressionLoop_ok h with ⟨h1, rhs, r2, hp, hl⟩ | ⟨h1, rfl, rfl⟩
      · obtain ⟨hTne, hTnil⟩ := ihT _ _ _ hp
        by_cases hr2 : r2 = []
        · subst hr2
          obtain ⟨rfl, rfl⟩ := parseExpressionLoop_nil_ok hl
          refine ⟨fun hc => absurd rfl hc, fun _ => ?_⟩
          rw [show k + 1 + 3 = (k + 3) + 1 by omega, parseExpressionLoop_succ,
            if_pos (head_skipWs_append h1 t), get_append h1, hTnil rfl]
          cases tlErr with
          | none =>
            simp only [tailResult, resume]
            rw [(parse_skipWs _ t).2.2.2.1]
            exact hEL k _
          | some err => rfl
        · have hin2 : skipWs r2 ≠ [] := by
            rw [(rest_normal k).2.1 _ _ _ hp]; exact hr2
          obtain ⟨hEne, hEnil⟩ := ihEL _ _ _ _ hin2 hl
          have hp' := hTne hr2
          constructor
          · intro hrest
            rw [parseExpressionLoop_succ, if_pos (head_skipWs_append h1 t), get_append h1,
              hp']
            exact hEne hrest
          · intro hrest
            rw [show k + 1 + 3 = (k + 3) + 1 by omega, parseExpressionLoop_succ,
              if_pos (head_skipWs_append h1 t), get_append h1, (fuel_mono hk).2.2.1 _ _ hp']
            exact hEnil hrest
      · refine ⟨fun hrest => ?_, fun hrest => absurd hrest hin⟩
        rw [parseExpressionLoop_succ, skipWs_append_of_ne_nil hrest,
          if_neg (head_append_ne hrest h1 t)]
    · intro input e rest h
      obtain ⟨node, r1, hp, hl⟩ := parseExpression_ok h
      obtain ⟨hTne, hTnil⟩ := ihT _ _ _ hp
      by_cases hr1 : r1 = []
      · subst hr1
        obtain ⟨rfl, rfl⟩ := parseExpressionLoop_nil_ok hl
        refine ⟨fun hc => absurd rfl hc, fun _ => ?_⟩
        rw [show k + 1 + 3 = (k + 3) + 1 by omega, parseExpression, hTnil rfl]
        cases tlErr with
        | none =>
          simp only [tailResult, resume]
          rw [(parse_skipWs _ t).2.2.2.1]
          exact hEL k _
        | some err => rfl
      · have hin : skipWs r1 ≠ [] := by
          rw [(rest_normal k).2.1 _ _ _ hp]; exact hr1
        obtain ⟨hEne, hEnil⟩ := ihEL _ _ _ _ hin hl
        have hp' := hTne hr1
        constructor
        · intro hrest
          rw [parseExpression, hp']
          exact hEne hrest
        · intro hrest
          rw [show k + 1 + 3 = (k + 3) + 1 by omega, parseExpression,
            (fuel_mono hk).2.2.1 _ _ hp']
          exact hEnil hrest

theorem parsePrimary_nil (f : Nat) : parsePrimary (f + 1) [] = some (.error .ExpectedNumber) :=
  parsePrimary_expected_number f [] (by simp [skipWs])

/-- A tail that does not start with an operator ends both loops. -/
theorem quiet_tail {t : List Char}
    (h : ∀ c, (skipWs t).head? = some c → c ≠ '+' ∧ c ≠ '*') :
    (∀ g node, parseTermLoop (g + 2) node t = tailResult none node t) ∧
    (∀ g node, parseExpressionLoop (g + 3) node t = tailResult none node t) :=
  ⟨fun g node => parseTermLoop_done (g + 1) node t (fun hc => (h _ hc).2 rfl),
    fun g node => parseExpressionLoop_done (g + 2) node t (fun hc => (h _ hc).1 rfl)⟩

/-- The tail `*` makes the loop of `parseTerm` ask for a primary, which is missing. -/
theorem star_tail :
    (∀ g node, parseTermLoop (g + 2) node [ '*'] =
      tailResult (some .ExpectedNumber) node [ '*']) ∧
    (∀ g node, parseExpressionLoop (g + 3) node [ '*'] = tailResult none node [ '*']) := by
  constructor
  · intro g node
    rw [parseTermLoop_star, parsePrimary_nil]
    rfl
  · intro g node
    exact parseExpressionLoop_cons _ _ _ (by decide) (by decide)

/-- The tail `+` ends the loop of `parseTerm` and makes the loop of `parseExpression`
ask for a term, which is missing. -/
theorem plus_tail :
    (∀ g node, parseTermLoop (g + 2) node [ '+'] = tailResult none node [ '+']) ∧
    (∀ g node, parseExpressionLoop (g + 3) node [ '+'] =
      tailResult (some .ExpectedNumber) node [ '+']) := by
  constructor
  · intro g node
    exact parseTermLoop_cons _ _ _ (by decide) (by decide)
  · intro g node
    rw [parseExpressionLoop_plus, parseTerm, parsePrimary_nil]
    rfl

theorem parse_of_ParsesAll {s : String} {e : Expression} (h : ParsesAll s e) :
    parse s = some (.ok e) :=
  parse_of_list rfl (Nat.le_refl _) h

set_option maxRecDepth 100000 in
/-- C12: trailing input is silently accepted.  When `parse` succeeds on `s` having
consumed all of it, and the first non-whitespace character of `g` (if any) is neither
`+` nor `*`, `parse(s ++ " " ++ g)` succeeds with the same tree as `parse(s)`;
`parse("2 + 3 garbage")` succeeds with `Add(Constant 2, Constant 3)`. -/
theorem trailing_input_accepted (s g : String) (e : Expression) (h : ParsesAll s e)
    (hg : ∀ c, (skipWs g.toList).head? = some c → c ≠ '+' ∧ c ≠ '*') :
    parse (s ++ " " ++ g) = some (.ok e) ∧ parse s = some (.ok e) ∧
    parse "2 + 3 garbage" = some (.ok (.Add (lit "2") (lit "3"))) := by
  refine ⟨?_, parse_of_ParsesAll h, by decide⟩
  have hq := quiet_tail (t := ' ' :: g.toList) (by
    rw [skipWs_space _ _ (by decide)]; exact hg)
  have hres := ((append_tail (stops_space g.toList) hq.1 hq.2 _).2.2.2.2 _ _ _ h).2 rfl
  exact parse_of_list (by simp) (by simp; omega) hres

set_option maxRecDepth 100000 in
/-- C12 at `s = "2 + 3"` and `g = "garbage"`. -/
theorem trailing_input_accepted_witness :
    parse ("2 + 3" ++ " " ++ "garbage") = some (.ok (.Add (lit "2") (lit "3"))) :=
  (trailing_input_accepted "2 + 3" "garbage" _ (by decide) (by decide)).1

theorem close_tail :
    (∀ g node, parseTermLoop (g + 2) node [ ')'] = tailResult none node [ ')']) ∧
    (∀ g node, parseExpressionLoop (g + 3) node [ ')'] = tailResult none node [ ')']) :=
  quiet_tail (by decide)

/-- C15: wrapping a complete expression in parentheses does not change its tree.  When
`parse` succeeds on `s` having consumed all of it, `parse("(" ++ s ++ ")")` succeeds
with the same tree as `parse(s)`: the group adds no node. -/
theorem parentheses_add_no_node (s : String) (e : Expression) (h : ParsesAll s e) :
    parse ("(" ++ s ++ ")") = some (.ok e) ∧ parse s = some (.ok e) := by
  refine ⟨?_, parse_of_ParsesAll h⟩
  have hres := ((append_tail (stops_close []) close_tail.1 close_tail.2 _).2.2.2.2
    _ _ _ h).2 rfl
  have hin : parseExpression (4 * s.length + 8) (s.toList ++ [ ')']) =
      some (.ok (e, [ ')'])) :=
    (fuel_mono (by omega)).2.2.2.2 _ _ hres
  have hl : ("(" ++ s ++ ")").toList = '(' :: (s.toList ++ [ ')']) := by simp
  have hlen : 4 * ("(" ++ s ++ ")").length + 3 = 4 * s.length + 8 + 1 + 1 + 1 := by
    simp only [String.length_append]
    have h1 : "(".length = 1 := rfl
    have h2 : ")".length = 1 := rfl
    omega
  unfold parse
  rw [hlen, hl, parseExpression, parseTerm, parsePrimary_paren, hin]
  simp only [get_cons [] (show isspace ')' = false by decide), if_true]
  rw [parseTermLoop_nil]
  simp only []
  rw [parseExpressionLoop_nil]

set_option maxRecDepth 100000 in
/-- C15 at `s = "1 + 2"`. -/
theorem parentheses_add_no_node_witness :
    parse ("(" ++ "1 + 2" ++ ")") = some (.ok (.Add (lit "1") (lit "2"))) :=
  (parentheses_add_no_node "1 + 2" _ (by decide)).1

/-- C16: a binary operator with a missing right operand is rejected.  When `parse`
succeeds on `s` having consumed all of it, `parse(s ++ "+")` and `parse(s ++ "*")` fail
with `ExpectedNumber`. -/
theorem missing_operand_rejected (s : String) (e : Expression) (h : ParsesAll s e) :
    parse (s ++ "+") = some (.error .ExpectedNumber) ∧
    parse (s ++ "*") = some (.error .ExpectedNumber) := by
  constructor
  · have hres := ((append_tail (t := [ '+']) rfl plus_tail.1 plus_tail.2 _).2.2.2.2
      _ _ _ h).2 rfl
    have hf : 4 * s.length + 3 + 3 ≤ 4 * (s ++ "+").length + 3 := by
      simp only [String.length_append]
      have h1 : "+".length = 1 := rfl
      omega
    have hl : (s ++ "+").toList = s.toList ++ [ '+'] := by simp
    rw [← hl] at hres
    exact parse_of_parseExpression hf hres
  · have hres := ((append_tail (t := [ '*']) rfl star_tail.1 star_tail.2 _).2.2.2.2
      _ _ _ h).2 rfl
    have hf : 4 * s.length + 3 + 3 ≤ 4 * (s ++ "*").length + 3 := by
      simp only [String.length_append]
      have h1 : "*".length = 1 := rfl
      omega
    have hl : (s ++ "*").toList = s.toList ++ [ '*'] := by simp
    rw [← hl] at hres
    exact parse_of_parseExpression hf hres

set_option maxRecDepth 100000 in
/-- C16 at `s = "2 * (3 + 4)"`. -/
theorem missing_operand_rejected_witness :
    parse ("2 * (3 + 4)" ++ "+") = some (.error .ExpectedNumber) ∧
    parse ("2 * (3 + 4)" ++ "*") = some (.error .ExpectedNumber) :=
  missing_operand_rejected "2 * (3 + 4)" (.Multiply (lit "2") (.Add (lit "3") (lit "4")))
    (by decide)

theorem skipWs_whitespace_append (w input : List Char) (hw : ∀ c ∈ w, isspace c = true) :
    skipWs (w ++ input) = skipWs input := by
  induction w with
  | nil => rfl
  | cons c cs ih =>
    rw [List.cons_append, skipWs_space _ _ (hw c (by simp))]
    exact ih (fun d hd => hw d (by simp [hd]))

set_option maxRecDepth 100000 in
/-- C18: whitespace is ignored.  `parse(w ++ s)` gives the result of `parse(s)`, tree or
error, for every string `w` of whitespace characters; every lookahead, every
consumption of a character and every parsing function gives the same result with and
without the whitespace before it, which is how whitespace around operators and
parentheses is ignored; `parse("2*(3+4)")` gives the tree of `parse("2 * (3 + 4)")`. -/
theorem whitespace_ignored (s w : String) (hw : ∀ c ∈ w.toList, isspace c = true) :
    parse (w ++ s) = parse s ∧
    (∀ input, (peek (w.toList ++ input)).1 = (peek input).1 ∧
      get (w.toList ++ input) = get input) ∧
    (∀ f input, parsePrimary f (w.toList ++ input) = parsePrimary f input ∧
      parseTerm f (w.toList ++ input) = parseTerm f input ∧
      parseExpression f (w.toList ++ input) = parseExpression f input ∧
      (∀ node, parseTermLoop f node (w.toList ++ input) = parseTermLoop f node input) ∧
      (∀ node, parseExpressionLoop f node (w.toList ++ input) =
        parseExpressionLoop f node input)) ∧
    parse "2*(3+4)" = parse "2 * (3 + 4)" ∧
    parse "2*(3+4)" = some (.ok (.Multiply (lit "2") (.Add (lit "3") (lit "4")))) := by
  have hsk : ∀ input, skipWs (w.toList ++ input) = skipWs input :=
    fun input => skipWs_whitespace_append _ _ hw
  refine ⟨?_, ?_, ?_, by decide, by decide⟩
  · have hE : ∀ f, parseExpression f (w ++ s).toList = parseExpression f s.toList := by
      intro f
      have hl : (w ++ s).toList = w.toList ++ s.toList := by simp
      rw [hl, ← (parse_skipWs f _).2.2.2.2, hsk, (parse_skipWs f _).2.2.2.2]
    have hf : 4 * s.toList.length + 3 ≤ 4 * (w ++ s).length + 3 := by
      have h1 : s.toList.length = s.length := rfl
      rw [h1, String.length_append]
      omega
    unfold parse
    rw [hE, parseExpression_stable s.toList hf]
    rfl
  · intro input
    constructor
    · rw [← peek_skipWs, hsk, peek_skipWs]
    · rw [← get_skipWs, hsk, get_skipWs]
  · intro f input
    have h1 := parse_skipWs f (w.toList ++ input)
    have h2 := parse_skipWs f input
    rw [hsk] at h1
    refine ⟨h1.1.symm.trans h2.1, h1.2.2.1.symm.trans h2.2.2.1,
      h1.2.2.2.2.symm.trans h2.2.2.2.2, fun node => ?_, fun node => ?_⟩
    · exact (h1.2.1 node).symm.trans (h2.2.1 node)
    · exact (h1.2.2.2.1 node).symm.trans (h2.2.2.2.1 node)

set_option maxRecDepth 100000 in
/-- C18 at `w = "  "` and `s = "2*(3+4)"`. -/
theorem whitespace_ignored_witness : parse ("  " ++ "2*(3+4)") = parse "2*(3+4)" :=
  (whitespace_ignored "2*(3+4)" "  " (by decide)).1

end ParserCalculator
